import Mathlib

/-!
Shallow embedding of the LSM-tree storage engine of this repository
(package `lsmtree`: `lsmtree.go`, `memtable.go` in its skip-list variant,
`skiplist.go`, `encoding.go` in its big-endian variant, `disktable.go`,
`merge.go`, and the WAL file `wal.go`).

Modelling conventions:
- Go byte slices (`[]byte`) are `List Nat`; a `nil` slice and the empty
  slice are both `[]` (the engine never stores an empty non-nil value,
  so the `value != nil` tests of the source coincide with `value ≠ []`).
- Go `int` is `Int`.  None of the modelled quantities approach 2^63, so
  the two's-complement wrap of Go integers is made explicit only in the
  codec (`decodeInt`), where the source converts `uint64` to `int`.
- File system state is explicit: the WAL file is the list of records it
  holds, an on-disk table is the list of records of its `<i>-data` file
  (its `<i>-index` and `<i>-sparse` files are a function of that list
  and of `sparseKeyDistance`, exactly as `diskTableWriter.write`
  produces them, and are recomputed where the readers need them), and
  the set of tables is an association list from table index to records.
- I/O never fails spontaneously in the model; the only modelled errors
  are those the control flow of the source produces itself (missing
  files, corrupt framing, compaction with no eligible pair).
-/

/-- Byte strings: Go `[]byte` values. -/
abbrev Bytes : Type := List Nat

/-- Go `bytes.Compare`: lexicographic comparison, a strict prefix sorts
before its extensions. -/
def bytesCompare : Bytes → Bytes → Ordering
  | [], [] => .eq
  | [], _ :: _ => .lt
  | _ :: _, [] => .gt
  | a :: as, b :: bs =>
    if a < b then .lt
    else if b < a then .gt
    else bytesCompare as bs

/-- Strict key order used throughout: `bytes.Compare(a, b) < 0`. -/
def keyLt (a b : Bytes) : Prop := bytesCompare a b = .lt

instance (a b : Bytes) : Decidable (keyLt a b) := by
  unfold keyLt; infer_instance

/-- Non-strict key order: `bytes.Compare(a, b) <= 0`. -/
def keyLe (a b : Bytes) : Prop := a = b ∨ keyLt a b

/-!
Byte-record codec (`encoding.go`, big-endian variant).

The repository carries two codec implementations: the big-endian
fixed-width one modelled here, and a `sonic` (JSON text) one whose
`encodeInt` output is variable-length while its `decode` assumes 8-byte
headers; only the big-endian variant is internally consistent and it is
the one the on-disk format modelled below follows.
-/

/-- Go `binary.BigEndian.PutUint64`: the eight base-256 digits of
`u % 2^64`, most significant first. -/
def toBE8 (u : Nat) : List Nat :=
  [u / 256 ^ 7 % 256, u / 256 ^ 6 % 256, u / 256 ^ 5 % 256, u / 256 ^ 4 % 256,
   u / 256 ^ 3 % 256, u / 256 ^ 2 % 256, u / 256 % 256, u % 256]

/-- Go `binary.BigEndian.Uint64` over an 8-byte slice. -/
def fromBE8 (bs : List Nat) : Nat :=
  bs.foldl (fun a b => a * 256 + b) 0

/-- `encodeInt` of `encoding.go`: `uint64(x)` written big-endian. -/
def encodeInt (x : Int) : List Nat :=
  toBE8 ((x % (18446744073709551616 : Int)).toNat)

/-- `decodeInt` of `encoding.go`: `int(binary.BigEndian.Uint64(b))`;
the `uint64 → int` conversion wraps values at `2^63`. -/
def decodeInt (bs : List Nat) : Int :=
  let u := fromBE8 bs
  if u < 9223372036854775808 then (u : Int) else (u : Int) - 18446744073709551616

/-- `encode` of `encoding.go`: frame header (total length of everything
after the first 8 bytes), 8-byte key length, key bytes, value bytes.
A `nil` value writes nothing for the value part. -/
def encode (key value : Bytes) : List Nat :=
  encodeInt (8 + (key.length : Int) + (value.length : Int)) ++
    encodeInt (key.length : Int) ++ key ++ value

/-- Decode errors: `io.EOF` on a clean end of stream, and the corrupt /
short-read failures. Out-of-range slice accesses of the source (which
panic in Go and are unreachable for frames produced by `encode`) are
also folded into `.corrupt`. -/
inductive DecErr where
  | eof
  | corrupt
deriving DecidableEq

/-- `decode` of `encoding.go` over an explicit byte stream: reads the
8-byte frame header (Go zero-fills the header array, so a stream shorter
than 8 bytes yields the available bytes padded with zeros), reads the
declared payload, fails with a corruption error on a short payload, and
splits the payload into key and value; a payload of exactly
`8 + key_length` bytes carries a `nil` (tombstone) value. Returns the
decoded pair together with the unread remainder of the stream. -/
def decode (stream : List Nat) :
    Except DecErr ((Bytes × Option Bytes) × List Nat) :=
  if stream = [] then .error .eof
  else
    let hdr := stream.take 8 ++ List.replicate (8 - stream.length) 0
    let rest := stream.drop 8
    let entryLen := decodeInt hdr
    if entryLen ≤ 0 then .error .corrupt
    else if rest = [] then .error .eof
    else if rest.length < entryLen.toNat then .error .corrupt
    else if entryLen.toNat < 8 then .error .corrupt
    else
      let entry := rest.take entryLen.toNat
      let keyLen := decodeInt (entry.take 8)
      if keyLen < 0 then .error .corrupt
      else if entryLen.toNat < 8 + keyLen.toNat then .error .corrupt
      else
        let key := (entry.drop 8).take keyLen.toNat
        if 8 + keyLen.toNat = entryLen.toNat then
          .ok ((key, none), stream.drop (8 + entryLen.toNat))
        else
          .ok ((key, some (entry.drop (8 + keyLen.toNat))),
               stream.drop (8 + entryLen.toNat))

/-!
Skip list (`skiplist.go`) and the memtable wrapper (`memtable.go`,
skip-list variant).

The skip list is modelled by its level-0 (fully linked) list: `Insert`
links the new node directly after the last node whose key is strictly
smaller — hence before every existing node with an equal key; `Search`
walks to the first level-0 node whose key is not smaller and compares it
for equality; `Delete` unlinks that first node when its key matches,
adjusting `num` and `size` by the removed node; the iterator walks level
0 in order. The randomly chosen higher levels only shortcut the walk, so
the level-0 list determines every observable result.
-/

/-- One `(key, value)` record; an empty value is a `nil` slice. -/
abbrev Rec : Type := Bytes × Bytes

/-- Level-0 effect of `SkipList.Insert`: place the new node after the
last strictly-smaller key, before any node with an equal key. -/
def insertEntries : List Rec → Bytes → Bytes → List Rec
  | [], k, v => [(k, v)]
  | (k0, v0) :: rest, k, v =>
    if keyLt k0 k then (k0, v0) :: insertEntries rest k v
    else (k, v) :: (k0, v0) :: rest

/-- Level-0 effect of `SkipList.Search`: the first node whose key is not
strictly smaller decides the lookup. -/
def searchEntries : List Rec → Bytes → Option Bytes
  | [], _ => none
  | (k0, v0) :: rest, k =>
    if keyLt k0 k then searchEntries rest k
    else if k0 = k then some v0
    else none

/-- Level-0 effect of `SkipList.Delete`: unlink the first node whose key
is not strictly smaller when it matches; returns the removed record and
the remaining list, or `none` when the key is absent. -/
def removeEntries : List Rec → Bytes → Option (Rec × List Rec)
  | [], _ => none
  | (k0, v0) :: rest, k =>
    if keyLt k0 k then
      match removeEntries rest k with
      | none => none
      | some (r, rest2) => some (r, (k0, v0) :: rest2)
    else if k0 = k then some ((k0, v0), rest)
    else none

/-- `SkipList` of `skiplist.go`: level-0 entry list plus the `num`
(node count) and `size` (total key+value bytes) accounting fields. -/
structure SkipList where
  entries : List Rec
  num : Int
  size : Int
deriving DecidableEq

/-- `NewSkipList` (the `maxLevel` argument only bounds tower heights). -/
def NewSkipList : SkipList :=
  { entries := [], num := 0, size := 0 }

/-- `SkipList.Insert`: always creates a node; `num` grows by one and
`size` by the full key and value lengths, also when the key existed. -/
def SkipList.Insert (s : SkipList) (k v : Bytes) : SkipList :=
  { entries := insertEntries s.entries k v,
    num := s.num + 1,
    size := s.size + k.length + v.length }

/-- `SkipList.Search`. -/
def SkipList.Search (s : SkipList) (k : Bytes) : Option Bytes :=
  searchEntries s.entries k

/-- `SkipList.Delete`: physically removes the (newest) matching node and
subtracts its key and value lengths; a miss leaves the list unchanged. -/
def SkipList.Delete (s : SkipList) (k : Bytes) : SkipList :=
  match removeEntries s.entries k with
  | none => s
  | some (r, e) =>
    { entries := e, num := s.num - 1, size := s.size - (r.1.length + r.2.length) }

/-- `memTable.put` (skip-list variant of `memtable.go`): delegates to
`SkipList.Insert`; the wrapper's own `b`/`n` fields stay unused. -/
def memTablePut (m : SkipList) (k v : Bytes) : SkipList := m.Insert k v

/-- `memTable.get`: delegates to `SkipList.Search`. -/
def memTableGet (m : SkipList) (k : Bytes) : Option Bytes := m.Search k

/-- `memTable.delete`: delegates to `SkipList.Delete`. -/
def memTableDel (m : SkipList) (k : Bytes) : SkipList := m.Delete k

/-- `memTable.bytes`: returns the skip list's `size` field. -/
def memTableBytes (m : SkipList) : Int := m.size

/-- `loadMemTable` of `wal.go`: replay the WAL records in order into a
fresh memtable; a record with a `nil` (empty) value replays as a delete,
any other as an insert. -/
def loadMemTable (wal : List Rec) : SkipList :=
  wal.foldl (fun m r => if r.2 = [] then memTableDel m r.1 else memTablePut m r.1 r.2)
    NewSkipList

/-!
On-disk tables (`disktable.go`).

A table is the record list of its `<i>-data` file. The `<i>-index` file
holds one record per data record whose value is the 8-byte data-file
offset of that record; the `<i>-sparse` file samples every
`sparseKeyDistance`-th index record with its index-file offset. Both are
recomputed below from the data records, exactly as `diskTableWriter.write`
produces them, so the readers can be modelled over explicit offsets.
-/

/-- Bytes `encode` writes for a record: 8-byte frame header, 8-byte key
length, key, value. -/
def recSize (r : Rec) : Int := 16 + r.1.length + r.2.length

/-- Size in bytes of a `<i>-data` file (`utils.GetFileSize` on it). -/
def dataFileSize (rs : List Rec) : Int :=
  rs.foldl (fun a r => a + recSize r) 0

/-- Bytes `encodeKeyOffset` writes for one index record: the value is
the 8-byte encoded offset. -/
def idxRecSize (k : Bytes) : Int := 24 + k.length

/-- Dense index contents: each data record's key with the data-file
offset at which its record starts (`w.dataPos` before the write). -/
def denseEntries : List Rec → Int → List (Bytes × Int)
  | [], _ => []
  | (k, v) :: rest, dataPos => (k, dataPos) :: denseEntries rest (dataPos + recSize (k, v))

/-- Sparse index contents: every `sd`-th key (counted by `w.keyNum`)
with the index-file offset of its dense record (`w.indexPos` before the
write). -/
def sparseEntries : List Rec → Int → Nat → Nat → List (Bytes × Int)
  | [], _, _, _ => []
  | (k, _) :: rest, idxPos, keyNum, sd =>
    (if keyNum % sd = 0 then [(k, idxPos)] else []) ++
      sparseEntries rest (idxPos + idxRecSize k) (keyNum + 1) sd

/-- `searchInSparseIndex`: scan sparse records in file order holding a
running lower bound `frm` (initially `-1`); an exact hit narrows to a
single offset, a larger key closes the range (or reports a miss when no
smaller key was seen), and end-of-file leaves the range open-ended. -/
def searchInSparseIndex : List (Bytes × Int) → Bytes → Int → Int × Int × Bool
  | [], _, frm => (frm, 0, frm != -1)
  | (k0, off) :: rest, k, frm =>
    match bytesCompare k0 k with
    | .eq => (off, off, true)
    | .lt => searchInSparseIndex rest k off
    | .gt => if frm = -1 then (0, 0, false) else (frm, off, true)

/-- `searchInIndex`: seek to offset `frm` in the dense index (records
starting before `frm` are skipped), then decode forward; an equal key
yields its data offset, and when the range is bounded (`to > frm`) the
scan stops once the file position passes `to`. -/
def searchInIndex : List (Bytes × Int) → Int → Int → Int → Bytes → Option Int
  | [], _, _, _, _ => none
  | (k0, doff) :: rest, pos, frm, toOff, k =>
    if pos < frm then searchInIndex rest (pos + idxRecSize k0) frm toOff k
    else if k0 = k then some doff
    else if frm < toOff ∧ pos + idxRecSize k0 > toOff then none
    else searchInIndex rest (pos + idxRecSize k0) frm toOff k

/-- `searchInDataFile`: seek to `off` in the data file and decode
forward until the key matches or the file ends. -/
def searchInDataFile : List Rec → Int → Int → Bytes → Option Bytes
  | [], _, _, _ => none
  | (k0, v0) :: rest, pos, off, k =>
    if pos < off then searchInDataFile rest (pos + recSize (k0, v0)) off k
    else if k0 = k then some v0
    else searchInDataFile rest (pos + recSize (k0, v0)) off k

/-- `searchInDiskTable`: sparse-index range narrowing, then dense-index
exact offset, then data-file scan. -/
def searchInDiskTable (rs : List Rec) (sd : Nat) (k : Bytes) : Bytes × Bool :=
  let sres := searchInSparseIndex (sparseEntries rs 0 0 sd) k (-1)
  if sres.2.2 then
    match searchInIndex (denseEntries rs 0) 0 sres.1 sres.2.1 k with
    | none => ([], false)
    | some off =>
      match searchInDataFile rs 0 off k with
      | none => ([], false)
      | some v => (v, true)
  else ([], false)

/-- Live on-disk tables: association of table index to data records. -/
abbrev DiskDir := List (Int × List Rec)

/-- Files of table `i` exist (and can be read). -/
def diskLookup : DiskDir → Int → Option (List Rec)
  | [], _ => none
  | (i, t) :: rest, j => if i = j then some t else diskLookup rest j

/-- Remove the file triple of table `i` (`deleteDiskTables`). -/
def diskErase (d : DiskDir) (i : Int) : DiskDir :=
  d.filter (fun p => p.1 != i)

/-- Create or overwrite the file triple of table `i`. -/
def diskInsert (d : DiskDir) (i : Int) (t : List Rec) : DiskDir :=
  diskErase d i ++ [(i, t)]

/-- `renameDiskTable`: move table `oldIdx`'s three files to the prefix
of `newIdx`, overwriting any files already there; fails when the source
files are missing. -/
def renameDiskTable (d : DiskDir) (oldIdx newIdx : Int) : Option DiskDir :=
  match diskLookup d oldIdx with
  | none => none
  | some t => some (diskInsert (diskErase d oldIdx) newIdx t)

/-- The descending loop of `searchInDiskTables`: the fuel is the next
table index plus one, so `fuel = n + 1` probes table `n`. A missing
table (its sparse file cannot be opened) surfaces as an error. -/
def searchDiskLoop (d : DiskDir) (sd : Nat) (k : Bytes) : Nat → Except Unit (Bytes × Bool)
  | 0 => .ok ([], false)
  | n + 1 =>
    match diskLookup d (n : Int) with
    | none => .error ()
    | some rs =>
      let r := searchInDiskTable rs sd k
      if r.2 then .ok r else searchDiskLoop d sd k n

/-- `searchInDiskTables`: probe tables from `maxIndex` down to `0`,
returning on the first hit. -/
def searchInDiskTables (d : DiskDir) (sd : Nat) (maxIndex : Int) (k : Bytes) :
    Except Unit (Bytes × Bool) :=
  searchDiskLoop d sd k (maxIndex + 1).toNat

/-!
Pairwise merge (`merge.go`). The loop holding one pending record per
iterator collapses to a two-list merge; the fuel argument (total length
of both inputs) makes the recursion structural.
-/

/-- The `merge` loop of `merge.go` with explicit fuel: on an equal key
only `b`'s record (the newer table's) is written and both sides
advance. -/
def mergeGo : Nat → List Rec → List Rec → List Rec
  | 0, as, bs => as ++ bs
  | _ + 1, [], bs => bs
  | _ + 1, a :: as, [] => a :: as
  | f + 1, (ka, va) :: as, (kb, vb) :: bs =>
    match bytesCompare ka kb with
    | .eq => (kb, vb) :: mergeGo f as bs
    | .gt => (kb, vb) :: mergeGo f ((ka, va) :: as) bs
    | .lt => (ka, va) :: mergeGo f as ((kb, vb) :: bs)

/-- `merge` of `merge.go`: each step consumes at least one record, so
the combined input length is enough fuel. -/
def mergeRecords (as bs : List Rec) : List Rec :=
  mergeGo (as.length + bs.length) as bs

/-!
LSM coordinator (`lsmtree.go`). The struct fields `dbDir`, the open WAL
file handle, the mutex and the never-populated cuckoo filters carry no
model state; the WAL file content, the on-disk tables and the
`maxdisktable` metadata file are explicit.
-/

/-- `MaxKeySize = math.MaxUint16`. -/
def MaxKeySize : Nat := 65535

/-- `MaxValueSize = math.MaxUint16`. -/
def MaxValueSize : Nat := 65535

/-- Errors `Put` can surface (the named validation errors, the
no-eligible-pair compaction failure, and wrapped file-system errors). -/
inductive PutErr where
  | keyRequired
  | keyTooLarge
  | valueRequired
  | valueTooLarge
  | compactionStuck
  | ioError
deriving DecidableEq

/-- Engine state: the `LSMTree` struct of `lsmtree.go` together with the
file-system contents it owns. -/
structure LSMTree where
  wal : List Rec
  memTable : SkipList
  immutableMemtables : List SkipList
  disk : DiskDir
  diskTableNum : Int
  maxDiskTableIndex : Int
  metaFile : Option (Int × Int)
  memTableThreshold : Int
  sparseKeyDistance : Nat
  immutableMemtableMaxNum : Nat
  diskTableNumThreshold : Int
deriving DecidableEq

/-- Go `value != nil` on a stored value. -/
def notNil : Bytes → Bool
  | [] => false
  | _ :: _ => true

/-- The merge loop of `compactImmutableMemtable`: walk every immutable
memtable in slice order (oldest first) and `Insert` each level-0 record
into one fresh skip list. -/
def mergeImmutables (ms : List SkipList) : SkipList :=
  ms.foldl (fun acc m => m.entries.foldl (fun a r => a.Insert r.1 r.2) acc) NewSkipList

/-- `flushMemTable`: write the given memtable as table `maxIndex + 1`
(`createDiskTable`), rewrite `maxdisktable` to the new pair, truncate
the WAL (`clearWAL`), and adopt the new counters. -/
def flushMemTable (t : LSMTree) (table : SkipList) : LSMTree :=
  let newNum := t.diskTableNum + 1
  let newIdx := t.maxDiskTableIndex + 1
  { t with disk := diskInsert t.disk newIdx table.entries,
           metaFile := some (newNum, newIdx),
           wal := [],
           diskTableNum := newNum,
           maxDiskTableIndex := newIdx }

/-- `compactImmutableMemtable`: merge all immutable memtables into one
skip list, flush it, and clear the immutable list. -/
def compactImmutableMemtable (t : LSMTree) : LSMTree :=
  let t2 := flushMemTable t (mergeImmutables t.immutableMemtables)
  { t2 with immutableMemtables := [] }

/-- Result of the adjacent-pair scan in `Put`'s compaction block. -/
inductive ScanOut where
  | stuck
  | merged (d : DiskDir) (pending : List (Int × Int)) (j : Int)
deriving DecidableEq

/-- The `for i := oldest; i < maxDiskTableIndex; i++` scan of `Put`:
a pair with a missing data file is skipped silently; a pair whose
combined data-file size exceeds 2 MiB is skipped and recorded in the
rename map (modelled in insertion order — Go iterates the map in
unspecified order); the first eligible pair is merged in place
(`mergeDiskTables` deletes both triples and renames the temporary
prefix to `b`'s). The fuel is `maxDiskTableIndex - i`. -/
def scanPairs (d : DiskDir) : Int → Nat → List (Int × Int) → ScanOut
  | _, 0, _ => .stuck
  | i, fuel + 1, pending =>
    match diskLookup d i, diskLookup d (i + 1) with
    | none, _ => scanPairs d (i + 1) fuel pending
    | some _, none => scanPairs d (i + 1) fuel pending
    | some ra, some rb =>
      if dataFileSize ra + dataFileSize rb > 2 * 1024 * 1024 then
        scanPairs d (i + 1) fuel (pending ++ [(i, i + 1)])
      else
        .merged (diskInsert (diskErase (diskErase d i) (i + 1)) (i + 1) (mergeRecords ra rb))
          pending i

/-- The rename loop run after a successful merge: apply each recorded
`a- → b-` rename in order, stopping at the first failure. -/
def applyRenames : DiskDir → List (Int × Int) → DiskDir × Bool
  | d, [] => (d, true)
  | d, (a, b) :: rest =>
    match renameDiskTable d a b with
    | none => (d, false)
    | some d2 => applyRenames d2 rest

/-- `LSMTree.Put`: validate sizes; append to the WAL (with fsync) and
only then insert into the mutable memtable; freeze the memtable once its
byte size reaches the threshold; flush once the immutable list reaches
its cap; then, if the disk-table count is at or above its threshold,
scan adjacent pairs from the oldest live index, merge the first pair
within the 2 MiB ceiling, rewrite the metadata to
`(count - 1, maxIndex)` and replay the recorded renames — or fail with
the compaction-stuck error when no pair is eligible. Besides the error
and the new state, the model returns the list of renames performed. -/
def LSMTree.Put (t : LSMTree) (key value : Bytes) :
    Option PutErr × LSMTree × List (Int × Int) :=
  if key.length = 0 then (some .keyRequired, t, [])
  else if key.length > MaxKeySize then (some .keyTooLarge, t, [])
  else if value.length = 0 then (some .valueRequired, t, [])
  else if value.length > MaxValueSize then (some .valueTooLarge, t, [])
  else
    let t1 := { t with wal := t.wal ++ [(key, value)],
                       memTable := memTablePut t.memTable key value }
    let t2 :=
      if memTableBytes t1.memTable ≥ t1.memTableThreshold then
        { t1 with immutableMemtables := t1.immutableMemtables ++ [t1.memTable],
                  memTable := NewSkipList }
      else t1
    let t3 :=
      if t2.immutableMemtables.length ≥ t2.immutableMemtableMaxNum then
        compactImmutableMemtable t2
      else t2
    if t3.diskTableNum ≥ t3.diskTableNumThreshold then
      let oldest := t3.maxDiskTableIndex - t3.diskTableNum + 1
      match scanPairs t3.disk oldest (t3.maxDiskTableIndex - oldest).toNat [] with
      | .stuck => (some .compactionStuck, t3, [])
      | .merged d1 pending _ =>
        let t4 := { t3 with metaFile := some (t3.diskTableNum - 1, t3.maxDiskTableIndex) }
        let ar := applyRenames d1 pending
        if ar.2 then
          (none, { t4 with disk := ar.1, diskTableNum := t3.diskTableNum - 1 }, pending)
        else
          (some .ioError, { t4 with disk := ar.1 }, pending)
    else (none, t3, [])

/-- `LSMTree.SearchInImmutableMemtable`: walk the immutable list in
slice order — index 0 first, which is the oldest memtable — and return
on the first skip-list hit, reporting `value != nil` as existence. -/
def LSMTree.SearchInImmutableMemtable : List SkipList → Bytes → Bytes × Bool
  | [], _ => ([], false)
  | m :: ms, k =>
    match memTableGet m k with
    | some v => (v, notNil v)
    | none => LSMTree.SearchInImmutableMemtable ms k

/-- `LSMTree.Get`: probe the mutable memtable, then the immutable list,
then the on-disk tables from `maxDiskTableIndex` down; a memtable hit
reports `value != nil`. `none` models an I/O error from the disk
search. -/
def LSMTree.Get (t : LSMTree) (key : Bytes) : Option (Bytes × Bool) :=
  match memTableGet t.memTable key with
  | some v => some (v, notNil v)
  | none =>
    let r := LSMTree.SearchInImmutableMemtable t.immutableMemtables key
    if r.2 then some (r.1, notNil r.1)
    else
      match searchInDiskTables t.disk t.sparseKeyDistance t.maxDiskTableIndex key with
      | .error _ => none
      | .ok res => some res

/-- `LSMTree.Delete`: append a tombstone record (`nil` value) to the WAL
and apply the memtable delete; no size validation. -/
def LSMTree.Delete (t : LSMTree) (key : Bytes) : LSMTree :=
  { t with wal := t.wal ++ [(key, [])], memTable := memTableDel t.memTable key }

/-- `Open`: load the memtable by replaying the given WAL content, read
`(diskTableNum, maxDiskTableIndex)` from the `maxdisktable` file (an
absent file yields `(0, -1)`), and start with the default options and an
empty immutable list. -/
def LSMTree.Open (wal : List Rec) (meta : Option (Int × Int)) (d : DiskDir) : LSMTree :=
  { wal := wal,
    memTable := loadMemTable wal,
    immutableMemtables := [],
    disk := d,
    diskTableNum := (match meta with | none => 0 | some p => p.1),
    maxDiskTableIndex := (match meta with | none => -1 | some p => p.2),
    metaFile := meta,
    memTableThreshold := 16000,
    sparseKeyDistance := 128,
    immutableMemtableMaxNum := 4,
    diskTableNumThreshold := 3 }

/-- The newest surviving write of key `k` in a WAL: the value of the
last record for `k`, or `none` when there is none or it is a tombstone.
Used to state what replay must reproduce. -/
def lastWrite (log : List Rec) (k : Bytes) : Option Bytes :=
  log.foldl (fun acc r => if r.1 = k then (if r.2 = [] then none else some r.2) else acc)
    none

/-- Integer interval `[o, o + n)` as an explicit list, used to phrase
decidable hypotheses about the compaction scan window. -/
def pairIdxList (o : Int) (n : Nat) : List Int :=
  (List.range n).map (fun j => o + Int.ofNat j)

/-- The skipped adjacent pairs `(o, o+1), …, (o+n-1, o+n)` in scan
order. -/
def chainPairs (o : Int) (n : Nat) : List (Int × Int) :=
  (List.range n).map (fun j => (o + Int.ofNat j, o + Int.ofNat j + 1))

/-- Strictly key-ascending record stream: the well-formedness the spec
guarantees for every on-disk table (sorted, duplicate-free). -/
def sortedStrict (l : List Rec) : Prop :=
  l.Pairwise (fun p q => keyLt p.1 q.1)

/-- Number of entries carrying key `k` in an entry list; the "at most
one entry per key per container" invariant is `countKey _ k ≤ 1`. -/
def countKey (e : List Rec) (k : Bytes) : Nat :=
  (e.filter (fun r => decide (r.1 = k))).length

/-- State of the engine right after `Put` has appended to the WAL and
inserted into the mutable memtable (the first two stages of a valid
put). -/
def walMemMutated (t : LSMTree) (k v : Bytes) : LSMTree :=
  { t with wal := t.wal ++ [(k, v)], memTable := memTablePut t.memTable k v }

/-!
Concrete engine states used by witnesses and counterexamples.
-/

/-- Fresh engine over an empty directory, opened with
`MemTableThreshold(1)`: every successful put freezes the memtable. -/
def tinyThresholdEngine : LSMTree :=
  { wal := [], memTable := NewSkipList, immutableMemtables := [], disk := [],
    diskTableNum := 0, maxDiskTableIndex := -1, metaFile := none,
    memTableThreshold := 1, sparseKeyDistance := 128,
    immutableMemtableMaxNum := 4, diskTableNumThreshold := 3 }

/-- Fresh engine over an empty directory with the default options. -/
def defaultFreshEngine : LSMTree :=
  LSMTree.Open [] none []

/-- `tinyThresholdEngine` after `Put(0x0A, 0x01)` then `Put(0x0A, 0x02)`;
each put froze the memtable, so the two values of key `0x0A` sit in two
different immutable memtables. -/
def statePutPut : LSMTree :=
  ((tinyThresholdEngine.Put [10] [1]).2.1.Put [10] [2]).2.1

/-- `tinyThresholdEngine` after `Put(0x0A, 0x05)` (which froze the
memtable) then `Delete(0x0A)`. -/
def statePutDel : LSMTree :=
  ((tinyThresholdEngine.Put [10] [5]).2.1).Delete [10]

/-- `statePutDel` re-opened from its durable state (WAL content,
metadata file, disk tables), as `Open` does after a crash. -/
def statePutDelReopened : LSMTree :=
  LSMTree.Open statePutDel.wal statePutDel.metaFile statePutDel.disk

/-- A state whose mutable memtable is empty while two immutable
memtables both contain key `0x0A`: the older (index 0) holds `0x01`,
the newer (index 1) holds `0x02`. -/
def stateTwoImmutables : LSMTree :=
  { wal := [], memTable := NewSkipList,
    immutableMemtables :=
      [memTablePut NewSkipList [10] [1], memTablePut NewSkipList [10] [2]],
    disk := [], diskTableNum := 0, maxDiskTableIndex := -1, metaFile := none,
    memTableThreshold := 16000, sparseKeyDistance := 128,
    immutableMemtableMaxNum := 4, diskTableNumThreshold := 3 }

/-- A state with an empty mutable memtable and two immutable memtables
where only the newer one contains key `0x0A`. -/
def stateNewerImmutableOnly : LSMTree :=
  { wal := [], memTable := NewSkipList,
    immutableMemtables :=
      [memTablePut NewSkipList [20] [9], memTablePut NewSkipList [10] [3]],
    disk := [], diskTableNum := 0, maxDiskTableIndex := -1, metaFile := none,
    memTableThreshold := 16000, sparseKeyDistance := 128,
    immutableMemtableMaxNum := 4, diskTableNumThreshold := 3 }

/-- Three small on-disk tables at indices 0, 1, 2 with the table count
at the compaction threshold; the memtable threshold is high enough that
one more put does not freeze. -/
def stateThreeTables : LSMTree :=
  { wal := [], memTable := NewSkipList, immutableMemtables := [],
    disk := [(0, [([1], [2])]), (1, [([3], [4])]), (2, [([5], [6])])],
    diskTableNum := 3, maxDiskTableIndex := 2, metaFile := some (3, 2),
    memTableThreshold := 100000, sparseKeyDistance := 128,
    immutableMemtableMaxNum := 4, diskTableNumThreshold := 3 }

-- ===== THEOREMS =====

theorem bytesCompare_self (a : Bytes) : bytesCompare a a = .eq := by
  induction a with
  | nil => rfl
  | cons x xs ih => simp [bytesCompare, ih]

theorem bytesCompare_eq_iff {a b : Bytes} : bytesCompare a b = .eq ↔ a = b := by
  induction a generalizing b with
  | nil => cases b <;> simp [bytesCompare]
  | cons x xs ih =>
    cases b with
    | nil => simp [bytesCompare]
    | cons y ys =>
      by_cases hxy : x < y
      · simp [bytesCompare, hxy]
        intro h; omega
      · by_cases hyx : y < x
        · simp [bytesCompare, hxy, hyx]
          intro h; omega
        · have hxyeq : x = y := by omega
          simp [bytesCompare, hxy, hyx, hxyeq, ih]

theorem bytesCompare_swap (a b : Bytes) :
    bytesCompare a b = .gt ↔ bytesCompare b a = .lt := by
  induction a generalizing b with
  | nil => cases b <;> simp [bytesCompare]
  | cons x xs ih =>
    cases b with
    | nil => simp [bytesCompare]
    | cons y ys =>
      by_cases hxy : x < y
      · have : ¬ y < x := by omega
        simp [bytesCompare, hxy, this]
      · by_cases hyx : y < x
        · simp [bytesCompare, hxy, hyx]
        · simp [bytesCompare, hxy, hyx, ih]

theorem keyLt_trans {a b c : Bytes} (hab : keyLt a b) (hbc : keyLt b c) :
    keyLt a c := by
  induction a generalizing b c with
  | nil =>
    cases c with
    | nil =>
      cases b with
      | nil => exact hab
      | cons y ys => exact absurd hbc (by simp [keyLt, bytesCompare])
    | cons z zs => simp [keyLt, bytesCompare]
  | cons x xs ih =>
    cases b with
    | nil => exact absurd hab (by simp [keyLt, bytesCompare])
    | cons y ys =>
      cases c with
      | nil => exact absurd hbc (by simp [keyLt, bytesCompare])
      | cons z zs =>
        unfold keyLt bytesCompare at hab hbc ⊢
        by_cases hxy : x < y
        · by_cases hyz : y < z
          · have hxz : x < z := by omega
            simp [hxz]
          · by_cases hzy : z < y
            · simp [hyz, hzy] at hbc
            · have hyzeq : y = z := by omega
              have hxz : x < z := by omega
              simp [hxz]
        · by_cases hyx : y < x
          · simp [hxy, hyx] at hab
          · have hxyeq : x = y := by omega
            subst hxyeq
            by_cases hyz : x < z
            · simp [hyz]
            · by_cases hzy : z < x
              · simp [hyz, hzy] at hbc
              · have : ¬ z < x := by omega
                simp [hyz, hzy] at hbc ⊢
                have hltxs : keyLt xs ys := by
                  unfold keyLt
                  simpa [hxy, hyx] using hab
                exact ih hltxs hbc

theorem keyLt_irrefl (a : Bytes) : ¬ keyLt a a := by
  intro h
  rw [keyLt, bytesCompare_self a] at h
  exact Ordering.noConfusion h

theorem keyLt_ne {a b : Bytes} (h : keyLt a b) : a ≠ b := by
  intro he; subst he; exact keyLt_irrefl a h

theorem keyLt_asymm {a b : Bytes} (h : keyLt a b) : ¬ keyLt b a := by
  intro h2
  exact keyLt_irrefl a (keyLt_trans h h2)

/-- Trichotomy: if `bytesCompare a b` is not `.lt`, then the keys are
equal or `b` is strictly smaller. -/
theorem not_keyLt_cases {a b : Bytes} (h : ¬ keyLt a b) : a = b ∨ keyLt b a := by
  rcases hc : bytesCompare a b with hlt | heq | hgt
  · exact absurd hc h
  · exact Or.inl (bytesCompare_eq_iff.mp hc)
  · exact Or.inr ((bytesCompare_swap a b).mp hc)

theorem keyLe_trans {a b c : Bytes} (hab : keyLe a b) (hbc : keyLe b c) :
    keyLe a c := by
  rcases hab with h1 | h1
  · subst h1; exact hbc
  · rcases hbc with h2 | h2
    · subst h2; exact Or.inr h1
    · exact Or.inr (keyLt_trans h1 h2)

theorem keyLt_of_le_of_lt {a b c : Bytes} (hab : keyLe a b) (hbc : keyLt b c) :
    keyLt a c := by
  rcases hab with h1 | h1
  · subst h1; exact hbc
  · exact keyLt_trans h1 hbc

theorem toBE8_length (u : Nat) : (toBE8 u).length = 8 := rfl

theorem fromBE8_toBE8 (u : Nat) : fromBE8 (toBE8 u) = u % 2 ^ 64 := by
  simp only [toBE8, fromBE8, List.foldl]
  omega

theorem decodeInt_encodeInt {x : Int} (h0 : 0 ≤ x)
    (h1 : x < 9223372036854775808) : decodeInt (encodeInt x) = x := by
  have hx : (x % (18446744073709551616 : Int)) = x := by omega
  have hxt : ((x % (18446744073709551616 : Int)).toNat : Int) = x := by omega
  simp only [decodeInt, encodeInt, fromBE8_toBE8]
  have hlt : (x % (18446744073709551616 : Int)).toNat < 2 ^ 64 := by omega
  rw [Nat.mod_eq_of_lt hlt]
  have hsm : (x % (18446744073709551616 : Int)).toNat < 9223372036854775808 := by
    omega
  simp only [hsm, if_pos, hxt]

theorem encodeInt_ofNat (n : Nat) (h : (n : Int) < 18446744073709551616) :
    encodeInt (n : Int) = toBE8 n := by
  unfold encodeInt
  have : ((n : Int) % (18446744073709551616 : Int)) = (n : Int) := by omega
  rw [this]
  simp

theorem decodeInt_toBE8 (n : Nat) (h : n < 9223372036854775808) :
    decodeInt (toBE8 n) = (n : Int) := by
  unfold decodeInt
  rw [fromBE8_toBE8]
  have h64 : n % 2 ^ 64 = n := Nat.mod_eq_of_lt (by omega)
  rw [h64]
  simp [h]

theorem take_eight_append (l r : List Nat) (h : l.length = 8) :
    (l ++ r).take 8 = l := by
  rw [← h]; exact List.take_left l r

theorem drop_eight_append (l r : List Nat) (h : l.length = 8) :
    (l ++ r).drop 8 = r := by
  rw [← h]; exact List.drop_left l r

/-- C6: for the record codec the engine uses (the big-endian fixed-width
variant, the only internally consistent one), decode is a left inverse
of encode: for every non-empty byte string K and possibly-empty byte
string V (of Go-representable lengths), decoding the bytes produced by
`encode(K, V)` yields exactly `(K, V)`, an empty V being decoded as the
tombstone (`nil`) value, with all length fields written as 8-byte
big-endian unsigned integers and the whole frame consumed. -/
theorem C6_decode_left_inverse_of_encode (k v : Bytes) (hk : k ≠ [])
    (hbound : (k.length : Int) + (v.length : Int) + 8 < 9223372036854775808) :
    decode (encode k v) = .ok ((k, if v = [] then none else some v), []) := by
  have hk1 : 1 ≤ k.length := by
    cases k with
    | nil => exact absurd rfl hk
    | cons a as => simp
  have hT : encodeInt (8 + (k.length : Int) + (v.length : Int)) =
      toBE8 (8 + k.length + v.length) := by
    have h8 : ((8 + k.length + v.length : Nat) : Int) =
        8 + (k.length : Int) + (v.length : Int) := by push_cast; ring
    rw [← h8]
    exact encodeInt_ofNat (8 + k.length + v.length) (by omega)
  have hKL : encodeInt (k.length : Int) = toBE8 k.length := by
    exact encodeInt_ofNat k.length (by omega)
  have hstream : encode k v =
      toBE8 (8 + k.length + v.length) ++ (toBE8 k.length ++ (k ++ v)) := by
    unfold encode
    rw [hT, hKL]
    simp [List.append_assoc]
  rw [hstream]
  have hTlen : (toBE8 (8 + k.length + v.length)).length = 8 := toBE8_length _
  have hKLlen : (toBE8 k.length).length = 8 := toBE8_length _
  have hslen : (toBE8 (8 + k.length + v.length) ++ (toBE8 k.length ++ (k ++ v))).length
      = 16 + k.length + v.length := by
    simp only [List.length_append, hTlen, hKLlen]
    omega
  unfold decode
  rw [if_neg (by
    intro hnil
    have := congrArg List.length hnil
    rw [hslen] at this
    simp at this)]
  rw [take_eight_append _ _ hTlen, drop_eight_append _ _ hTlen]
  rw [hslen]
  have hrep : (8 - (16 + k.length + v.length)) = 0 := by omega
  rw [hrep]
  simp only [List.replicate, List.append_nil]
  rw [decodeInt_toBE8 _ (by omega)]
  have hTpos : ¬ ((8 + k.length + v.length : Nat) : Int) ≤ 0 := by
    push_cast; omega
  rw [if_neg hTpos]
  have hrestlen : (toBE8 k.length ++ (k ++ v)).length = 8 + k.length + v.length := by
    simp only [List.length_append, hKLlen]
    omega
  rw [if_neg (by
    intro hnil
    have := congrArg List.length hnil
    rw [hrestlen] at this
    simp at this)]
  have htonat : ((8 + k.length + v.length : Nat) : Int).toNat = 8 + k.length + v.length := by
    omega
  rw [htonat]
  rw [if_neg (by rw [hrestlen]; omega)]
  rw [if_neg (by omega)]
  have hentry : (toBE8 k.length ++ (k ++ v)).take (8 + k.length + v.length) =
      toBE8 k.length ++ (k ++ v) := by
    apply List.take_of_length_le
    rw [hrestlen]
  rw [hentry]
  rw [take_eight_append _ _ hKLlen, drop_eight_append _ _ hKLlen]
  rw [decodeInt_toBE8 _ (by omega)]
  rw [if_neg (by omega)]
  have hkltonat : ((k.length : Nat) : Int).toNat = k.length := by omega
  rw [hkltonat]
  rw [if_neg (by omega)]
  rw [List.take_left k v]
  by_cases hv : v = []
  · have hvlen0 : v.length = 0 := by rw [hv]; rfl
    rw [if_pos (by omega)]
    rw [if_pos hv]
    have hdropall : (toBE8 (8 + k.length + v.length) ++ (toBE8 k.length ++ (k ++ v))).drop
        (8 + (8 + k.length + v.length)) = [] := by
      apply List.drop_of_length_le
      rw [hslen]
      omega
    rw [hdropall]
  · have hvlen : v.length ≠ 0 := by
      intro h0
      exact hv (List.eq_nil_of_length_eq_zero h0)
    rw [if_neg (by omega)]
    rw [if_neg hv]
    have hdropval : (toBE8 k.length ++ (k ++ v)).drop (8 + k.length) = v := by
      have h1 : (toBE8 k.length ++ (k ++ v)).drop (8 + k.length) =
          ((toBE8 k.length ++ (k ++ v)).drop 8).drop k.length := by
        rw [List.drop_drop]
        try congr 1
        try omega
      rw [h1, drop_eight_append _ _ hKLlen, List.drop_left k v]
    rw [hdropval]
    have hdropall : (toBE8 (8 + k.length + v.length) ++ (toBE8 k.length ++ (k ++ v))).drop
        (8 + (8 + k.length + v.length)) = [] := by
      apply List.drop_of_length_le
      rw [hslen]
      omega
    rw [hdropall]

/-- Witness for C6 at `K = [1]`, `V = [2]` (and, for the tombstone
branch, the theorem applies equally at `V = []`). -/
theorem C6_decode_left_inverse_of_encode_witness :
    ([1] : Bytes) ≠ [] ∧ decode (encode [1] [2]) = .ok (([1], some [2]), []) := by
  constructor
  · decide
  · have h := C6_decode_left_inverse_of_encode [1] [2] (by decide) (by decide)
    simpa using h

theorem mem_insertEntries {e : List Rec} {k v : Bytes} {x : Rec}
    (h : x ∈ insertEntries e k v) : x = (k, v) ∨ x ∈ e := by
  induction e with
  | nil =>
    simp [insertEntries] at h
    exact Or.inl h
  | cons p rest ih =>
    obtain ⟨k0, v0⟩ := p
    by_cases hlt : keyLt k0 k
    · simp only [insertEntries, if_pos hlt, List.mem_cons] at h
      rcases h with h | h
      · exact Or.inr (h ▸ List.mem_cons_self (k0, v0) rest)
      · rcases ih h with h2 | h2
        · exact Or.inl h2
        · exact Or.inr (List.mem_cons_of_mem _ h2)
    · simp only [insertEntries, if_neg hlt, List.mem_cons] at h
      rcases h with h | h | h
      · exact Or.inl h
      · exact Or.inr (h ▸ List.mem_cons_self (k0, v0) rest)
      · exact Or.inr (List.mem_cons_of_mem _ h)

theorem searchEntries_insertEntries_self (e : List Rec) (k v : Bytes) :
    searchEntries (insertEntries e k v) k = some v := by
  induction e with
  | nil =>
    simp [insertEntries, searchEntries, keyLt_irrefl k]
  | cons p rest ih =>
    obtain ⟨k0, v0⟩ := p
    by_cases hlt : keyLt k0 k
    · simp only [insertEntries, if_pos hlt, searchEntries, if_pos hlt]
      exact ih
    · simp [insertEntries, if_neg hlt, searchEntries, keyLt_irrefl k]

theorem searchEntries_insertEntries_other {k2 k : Bytes} (hne : k2 ≠ k)
    (e : List Rec) (v2 : Bytes) :
    searchEntries (insertEntries e k2 v2) k = searchEntries e k := by
  induction e with
  | nil =>
    by_cases hlt : keyLt k2 k
    · simp [insertEntries, searchEntries, if_pos hlt]
    · simp [insertEntries, searchEntries, if_neg hlt, hne]
  | cons p rest ih =>
    obtain ⟨k0, v0⟩ := p
    by_cases hlt : keyLt k0 k2
    · simp only [insertEntries, if_pos hlt, searchEntries]
      by_cases hlk : keyLt k0 k
      · simp only [if_pos hlk]
        exact ih
      · simp only [if_neg hlk]
    · simp only [insertEntries, if_neg hlt, searchEntries]
      by_cases h2k : keyLt k2 k
      · simp only [if_pos h2k]
      · have hk2gt : keyLt k k2 := by
          rcases not_keyLt_cases h2k with h | h
          · exact absurd h hne
          · exact h
        simp only [if_neg h2k, if_neg hne]
        by_cases hlk : keyLt k0 k
        · exact absurd (keyLt_trans hlk hk2gt) hlt
        · have hk0ne : k0 ≠ k := by
            intro heq
            subst heq
            exact hlt hk2gt
          simp only [if_neg hlk, if_neg hk0ne]

theorem searchEntries_none_of_all_gt {e : List Rec} {k : Bytes}
    (h : ∀ x ∈ e, keyLt k x.1) : searchEntries e k = none := by
  cases e with
  | nil => rfl
  | cons p rest =>
    obtain ⟨k0, v0⟩ := p
    have h0 : keyLt k k0 := h (k0, v0) (List.mem_cons_self _ _)
    have hnlt : ¬ keyLt k0 k := keyLt_asymm h0
    have hne : k0 ≠ k := fun heq => (keyLt_ne h0) heq.symm
    simp [searchEntries, if_neg hnlt, if_neg hne]

/-- Sortedness invariant the skip list maintains on its level-0 list:
keys never decrease (duplicates may repeat). -/
def entriesSorted (e : List Rec) : Prop :=
  e.Pairwise (fun x y => keyLe x.1 y.1)

theorem insertEntries_sorted {e : List Rec} (hs : entriesSorted e) (k v : Bytes) :
    entriesSorted (insertEntries e k v) := by
  induction e with
  | nil =>
    simp [insertEntries, entriesSorted]
  | cons p rest ih =>
    obtain ⟨k0, v0⟩ := p
    rw [entriesSorted, List.pairwise_cons] at hs
    obtain ⟨hall, hrest⟩ := hs
    by_cases hlt : keyLt k0 k
    · rw [entriesSorted]
      simp only [insertEntries, if_pos hlt]
      rw [List.pairwise_cons]
      constructor
      · intro x hx
        rcases mem_insertEntries hx with h | h
        · rw [h]
          exact Or.inr hlt
        · exact hall x h
      · exact ih hrest
    · rw [entriesSorted]
      simp only [insertEntries, if_neg hlt]
      rw [List.pairwise_cons]
      constructor
      · intro x hx
        rcases List.mem_cons.mp hx with h | h
        · rw [h]
          rcases not_keyLt_cases hlt with he | hl
          · exact Or.inl he.symm
          · exact Or.inr hl
        · have hk0 : keyLe k k0 := by
            rcases not_keyLt_cases hlt with he | hl
            · exact Or.inl he.symm
            · exact Or.inr hl
          exact keyLe_trans hk0 (hall x h)
      · rw [List.pairwise_cons]
        exact ⟨hall, hrest⟩

theorem keyLt_of_lt_of_le {a b c : Bytes} (hab : keyLt a b) (hbc : keyLe b c) :
    keyLt a c := by
  rcases hbc with h | h
  · subst h; exact hab
  · exact keyLt_trans hab h

theorem removeEntries_sublist {e e2 : List Rec} {k : Bytes} {r : Rec}
    (h : removeEntries e k = some (r, e2)) : e2.Sublist e := by
  induction e generalizing e2 with
  | nil => simp [removeEntries] at h
  | cons p rest ih =>
    obtain ⟨k0, v0⟩ := p
    by_cases hlt : keyLt k0 k
    · simp only [removeEntries, if_pos hlt] at h
      cases hrec : removeEntries rest k with
      | none => rw [hrec] at h; simp at h
      | some pr =>
        obtain ⟨r2, rest2⟩ := pr
        rw [hrec] at h
        simp at h
        obtain ⟨hr, he2⟩ := h
        rw [← he2]
        exact List.Sublist.cons₂ _ (ih (by rw [hrec, hr]))
    · by_cases heq : k0 = k
      · simp only [removeEntries, if_neg hlt, if_pos heq] at h
        simp at h
        rw [← h.2]
        exact List.sublist_cons_self _ _
      · simp [removeEntries, if_neg hlt, if_neg heq] at h

theorem removeEntries_sorted {e e2 : List Rec} {k : Bytes} {r : Rec}
    (hs : entriesSorted e) (h : removeEntries e k = some (r, e2)) :
    entriesSorted e2 :=
  List.Pairwise.sublist (removeEntries_sublist h) hs

theorem searchEntries_removeEntries_other {e e2 : List Rec} {k2 k : Bytes} {r : Rec}
    (hs : entriesSorted e) (hne : k2 ≠ k)
    (h : removeEntries e k2 = some (r, e2)) :
    searchEntries e2 k = searchEntries e k := by
  induction e generalizing e2 with
  | nil => simp [removeEntries] at h
  | cons p rest ih =>
    obtain ⟨k0, v0⟩ := p
    rw [entriesSorted, List.pairwise_cons] at hs
    obtain ⟨hall, hrest⟩ := hs
    by_cases hlt : keyLt k0 k2
    · simp only [removeEntries, if_pos hlt] at h
      cases hrec : removeEntries rest k2 with
      | none => rw [hrec] at h; simp at h
      | some pr =>
        obtain ⟨r2, rest2⟩ := pr
        rw [hrec] at h
        simp at h
        obtain ⟨hr, he2⟩ := h
        rw [← he2]
        simp only [searchEntries]
        by_cases hlk : keyLt k0 k
        · simp only [if_pos hlk]
          exact ih hrest (by rw [hrec, hr])
        · simp only [if_neg hlk]
    · by_cases heq : k0 = k2
      · simp only [removeEntries, if_neg hlt, if_pos heq] at h
        simp at h
        obtain ⟨hr, he2⟩ := h
        subst heq
        rw [← he2]
        show searchEntries rest k = searchEntries ((k0, v0) :: rest) k
        by_cases hlk : keyLt k0 k
        · simp only [searchEntries, if_pos hlk]
        · have hkgt : keyLt k k0 := by
            rcases not_keyLt_cases hlk with he | hl
            · exact absurd he hne
            · exact hl
          have hne0 : k0 ≠ k := fun heq2 => (keyLt_ne hkgt) heq2.symm
          simp only [searchEntries, if_neg hlk, if_neg hne0]
          apply searchEntries_none_of_all_gt
          intro x hx
          exact keyLt_of_lt_of_le hkgt (hall x hx)
      · simp [removeEntries, if_neg hlt, if_neg heq] at h

theorem memTableGet_put_self (m : SkipList) (k v : Bytes) :
    memTableGet (memTablePut m k v) k = some v :=
  searchEntries_insertEntries_self m.entries k v

theorem memTableGet_put_other {k2 k : Bytes} (hne : k2 ≠ k) (m : SkipList) (v2 : Bytes) :
    memTableGet (memTablePut m k2 v2) k = memTableGet m k :=
  searchEntries_insertEntries_other hne m.entries v2

theorem memTableGet_del_other {k2 k : Bytes} (hs : entriesSorted m.entries)
    (hne : k2 ≠ k) : memTableGet (memTableDel m k2) k = memTableGet m k := by
  unfold memTableDel memTableGet SkipList.Delete SkipList.Search
  cases hrec : removeEntries m.entries k2 with
  | none => rfl
  | some pr =>
    obtain ⟨r, e2⟩ := pr
    exact searchEntries_removeEntries_other hs hne hrec

theorem memTablePut_sorted {m : SkipList} (hs : entriesSorted m.entries)
    (k v : Bytes) : entriesSorted (memTablePut m k v).entries :=
  insertEntries_sorted hs k v

theorem memTableDel_sorted {m : SkipList} (hs : entriesSorted m.entries)
    (k : Bytes) : entriesSorted (memTableDel m k).entries := by
  unfold memTableDel SkipList.Delete
  cases hrec : removeEntries m.entries k with
  | none => exact hs
  | some pr =>
    obtain ⟨r, e2⟩ := pr
    exact removeEntries_sorted hs hrec

theorem loadMemTable_sorted (log : List Rec) :
    entriesSorted (loadMemTable log).entries := by
  have hgen : ∀ (l : List Rec) (m : SkipList), entriesSorted m.entries →
      entriesSorted (l.foldl
        (fun m r => if r.2 = [] then memTableDel m r.1 else memTablePut m r.1 r.2)
        m).entries := by
    intro l
    induction l with
    | nil => intro m hm; exact hm
    | cons r rest ih =>
      intro m hm
      simp only [List.foldl]
      by_cases hr : r.2 = []
      · rw [if_pos hr]
        exact ih _ (memTableDel_sorted hm r.1)
      · rw [if_neg hr]
        exact ih _ (memTablePut_sorted hm r.1 r.2)
  have hnil : entriesSorted NewSkipList.entries := by
    simp [NewSkipList, entriesSorted]
  exact hgen log NewSkipList hnil

theorem loadMemTable_append (log : List Rec) (r : Rec) :
    loadMemTable (log ++ [r]) =
      (if r.2 = [] then memTableDel (loadMemTable log) r.1
       else memTablePut (loadMemTable log) r.1 r.2) := by
  unfold loadMemTable
  rw [List.foldl_append]
  rfl

theorem lastWrite_append (log : List Rec) (r : Rec) (k : Bytes) :
    lastWrite (log ++ [r]) k =
      (if r.1 = k then (if r.2 = [] then none else some r.2) else lastWrite log k) := by
  unfold lastWrite
  rw [List.foldl_append]
  rfl

theorem lastWrite_ne_nil {log : List Rec} {k v : Bytes}
    (h : lastWrite log k = some v) : v ≠ [] := by
  have hgen : ∀ (l : List Rec) (acc : Option Bytes),
      (∀ w, acc = some w → w ≠ []) →
      ∀ w, l.foldl
          (fun acc r => if r.1 = k then (if r.2 = [] then none else some r.2) else acc)
          acc = some w → w ≠ [] := by
    intro l
    induction l with
    | nil => intro acc hacc w hw; exact hacc w hw
    | cons r rest ih =>
      intro acc hacc w hw
      simp only [List.foldl] at hw
      apply ih _ _ w hw
      intro w2 hw2
      by_cases hr1 : r.1 = k
      · rw [if_pos hr1] at hw2
        by_cases hr2 : r.2 = []
        · rw [if_pos hr2] at hw2; exact absurd hw2 (by simp)
        · rw [if_neg hr2] at hw2
          have : r.2 = w2 := by injection hw2
          rw [← this]; exact hr2
      · rw [if_neg hr1] at hw2
        exact hacc w2 hw2
  exact hgen log none (by simp) v h

theorem replay_lastWrite {log : List Rec} {k v : Bytes}
    (h : lastWrite log k = some v) :
    memTableGet (loadMemTable log) k = some v := by
  induction log using List.reverseRecOn with
  | nil => simp [lastWrite] at h
  | append_singleton l r ih =>
    rw [lastWrite_append] at h
    rw [loadMemTable_append]
    by_cases hr1 : r.1 = k
    · rw [if_pos hr1] at h
      by_cases hr2 : r.2 = []
      · rw [if_pos hr2] at h
        exact absurd h (by simp)
      · rw [if_neg hr2] at h
        rw [if_neg hr2]
        have hv : r.2 = v := by injection h
        rw [hr1, hv]
        exact memTableGet_put_self _ k v
    · rw [if_neg hr1] at h
      by_cases hr2 : r.2 = []
      · rw [if_pos hr2]
        rw [memTableGet_del_other (loadMemTable_sorted l) hr1]
        exact ih h
      · rw [if_neg hr2]
        rw [memTableGet_put_other hr1]
        exact ih h

theorem Get_memTable_hit {t : LSMTree} {k v : Bytes}
    (h : memTableGet t.memTable k = some v) :
    t.Get k = some (v, notNil v) := by
  unfold LSMTree.Get
  rw [h]

theorem notNil_eq_true {v : Bytes} (h : v ≠ []) : notNil v = true := by
  cases v with
  | nil => exact absurd rfl h
  | cons a as => rfl

/-- C3 (amended): WAL append and fsync precede the memtable mutation,
and replay at open reapplies the logged records in order to a fresh
memtable (insert on non-empty value, delete on empty value, until clean
EOF); hence, after a crash right after an acknowledged mutation, any key
whose last logged mutation is a successful `put(K, V)` is read back as
`(V, true)` from the reopened store. (The original claim's stronger
conclusion — that `get` returns exactly the pre-crash results for every
key — fails, because `delete` physically removes the newest in-memory
entry instead of writing a tombstone and the immutable list is probed
oldest-first; see the counterexample.) -/
theorem C3_wal_replay_last_put (log : List Rec) (meta : Option (Int × Int))
    (d : DiskDir) (k v : Bytes) (h : lastWrite log k = some v) :
    (LSMTree.Open log meta d).Get k = some (v, true) := by
  have hv : v ≠ [] := lastWrite_ne_nil h
  have hm : memTableGet (LSMTree.Open log meta d).memTable k = some v :=
    replay_lastWrite h
  rw [Get_memTable_hit hm, notNil_eq_true hv]

/-- Witness for C3: a WAL holding the single acknowledged
`put(0x0A, 0x07)` replays to a store answering `(0x07, true)`. -/
theorem C3_wal_replay_last_put_witness :
    lastWrite [([10], [7])] [10] = some [7] ∧
    (LSMTree.Open [([10], [7])] none []).Get [10] = some ([7], true) :=
  ⟨by decide, C3_wal_replay_last_put [([10], [7])] none [] [10] [7] (by decide)⟩

/-- Counterexample for C3 as stated: after `Put(0x0A, 0x05)` (which
froze the memtable) and an acknowledged `Delete(0x0A)`, the live store
answers `get(0x0A) = (0x05, true)` — the frozen value resurfaces because
delete removed the key from the (empty) mutable memtable only — while
the store reopened from the same WAL answers `([], false)`; replay does
not reconstruct a memtable giving the same `get` results as before the
crash. -/
theorem C3_counterexample :
    statePutDel.Get [10] = some ([5], true) ∧
    statePutDelReopened.Get [10] = some ([], false) ∧
    statePutDel.Get [10] ≠ statePutDelReopened.Get [10] := by
  refine ⟨by decide, by decide, by decide⟩

/-- C2: the code contradicts the claim (and the tombstone semantics its
own memtable comments document): `SkipList.Delete` physically removes
the newest matching node instead of storing a tombstone, so after
`put(K, V)` that froze the memtable and a subsequent `delete(K)`,
`get(K)` still returns `(V, true)` from the older container instead of
reporting the key as absent. -/
theorem C2_code_bug_eval :
    statePutDel.wal = [([10], [5]), ([10], [])] ∧
    statePutDel.Get [10] = some ([5], true) := by
  refine ⟨by decide, by decide⟩

theorem Put_no_freeze_memTable (t : LSMTree) (k v : Bytes)
    (hk : ¬ (k.length = 0)) (hkle : ¬ (k.length > MaxKeySize))
    (hv : ¬ (v.length = 0)) (hvle : ¬ (v.length > MaxValueSize))
    (hth : (memTablePut t.memTable k v).size < t.memTableThreshold) :
    ((t.Put k v).2.1).memTable = memTablePut t.memTable k v := by
  unfold LSMTree.Put
  rw [if_neg hk, if_neg hkle, if_neg hv, if_neg hvle]
  simp only [memTableBytes]
  rw [if_neg (show ¬ ((memTablePut t.memTable k v).size ≥ t.memTableThreshold) from by omega)]
  set s : LSMTree :=
    { wal := t.wal ++ [(k, v)], memTable := memTablePut t.memTable k v,
      immutableMemtables := t.immutableMemtables, disk := t.disk,
      diskTableNum := t.diskTableNum, maxDiskTableIndex := t.maxDiskTableIndex,
      metaFile := t.metaFile, memTableThreshold := t.memTableThreshold,
      sparseKeyDistance := t.sparseKeyDistance,
      immutableMemtableMaxNum := t.immutableMemtableMaxNum,
      diskTableNumThreshold := t.diskTableNumThreshold } with hs
  have hr : memTablePut t.memTable k v = s.memTable := by rw [hs]
  rw [hr]
  repeat' split
  all_goals rfl

/-- C1 (amended): after a successful `put(K, V)` with no later mutation
of K, a subsequent `get(K)` returns `(V, true)` provided the put left K
in the mutable memtable (its byte size stayed below the freeze
threshold) — flushes and compactions of previously frozen data may run
inside the same put without affecting the result. Once freezes move
several occurrences of K into different immutable memtables the
oldest-first probe of the immutable list returns the oldest occurrence
instead (see the counterexample), so the unconditional claim fails. -/
theorem C1_put_then_get_returns_value (t : LSMTree) (k v : Bytes)
    (hk : k ≠ []) (hkle : k.length ≤ MaxKeySize)
    (hv : v ≠ []) (hvle : v.length ≤ MaxValueSize)
    (hth : (memTablePut t.memTable k v).size < t.memTableThreshold) :
    ((t.Put k v).2.1).Get k = some (v, true) := by
  have h1 : ¬ (k.length = 0) := fun h => hk (List.eq_nil_of_length_eq_zero h)
  have h2 : ¬ (k.length > MaxKeySize) := by omega
  have h3 : ¬ (v.length = 0) := fun h => hv (List.eq_nil_of_length_eq_zero h)
  have h4 : ¬ (v.length > MaxValueSize) := by omega
  have hm : memTableGet ((t.Put k v).2.1).memTable k = some v := by
    rw [Put_no_freeze_memTable t k v h1 h2 h3 h4 hth]
    exact memTableGet_put_self t.memTable k v
  rw [Get_memTable_hit hm, notNil_eq_true hv]

/-- Witness for C1 (amended): on a fresh default-configured engine,
`put(0x0A, 0x07)` followed by `get(0x0A)` yields `(0x07, true)`. -/
theorem C1_put_then_get_returns_value_witness :
    (memTablePut defaultFreshEngine.memTable [10] [7]).size <
        defaultFreshEngine.memTableThreshold ∧
    ((defaultFreshEngine.Put [10] [7]).2.1).Get [10] = some ([7], true) :=
  ⟨by decide,
   C1_put_then_get_returns_value defaultFreshEngine [10] [7]
     (by decide) (by decide) (by decide) (by decide) (by decide)⟩

/-- Counterexample for C1 as stated: with `MemTableThreshold(1)`,
`put(0x0A, 0x01)` freezes the memtable, `put(0x0A, 0x02)` freezes again,
and — although the last mutation of `0x0A` wrote `0x02` — `get(0x0A)`
returns `(0x01, true)` from the older immutable memtable, because the
immutable list is probed oldest-first. -/
theorem C1_counterexample :
    statePutPut.Get [10] = some ([1], true) ∧
    statePutPut.Get [10] ≠ some ([2], true) := by
  refine ⟨by decide, by decide⟩

theorem SearchInImmutableMemtable_oldest_hit {ms : List SkipList} {k v : Bytes}
    (i : Nat) (hi : i < ms.length)
    (hmiss : ∀ j (hj : j < i), memTableGet (ms.get ⟨j, lt_trans hj hi⟩) k = none)
    (hhit : memTableGet (ms.get ⟨i, hi⟩) k = some v) :
    LSMTree.SearchInImmutableMemtable ms k = (v, notNil v) := by
  induction ms generalizing i with
  | nil => exact absurd hi (by simp)
  | cons m rest ih =>
    cases i with
    | zero =>
      have hm : memTableGet m k = some v := hhit
      unfold LSMTree.SearchInImmutableMemtable
      rw [hm]
    | succ i2 =>
      have hm : memTableGet m k = none := hmiss 0 (Nat.succ_pos i2)
      unfold LSMTree.SearchInImmutableMemtable
      rw [hm]
      exact ih i2 (Nat.lt_of_succ_lt_succ hi)
        (fun j hj => hmiss (j + 1) (Nat.succ_lt_succ hj)) hhit

/-- C4 (amended): when `get(K)` misses the mutable memtable it probes
the immutable memtables in OLDEST-first (slice) order and returns the
first hit, consulting the on-disk tables only if every immutable
memtable misses; so if two immutable memtables both contain K, the value
from the OLDER one is returned — not the newer one as the claim
states. -/
theorem C4_immutable_probe_oldest_first (t : LSMTree) (k v : Bytes) (i : Nat)
    (hi : i < t.immutableMemtables.length)
    (hmem : memTableGet t.memTable k = none)
    (hmiss : ∀ j (hj : j < i),
      memTableGet (t.immutableMemtables.get ⟨j, lt_trans hj hi⟩) k = none)
    (hhit : memTableGet (t.immutableMemtables.get ⟨i, hi⟩) k = some v)
    (hv : v ≠ []) :
    t.Get k = some (v, true) := by
  have hsi := SearchInImmutableMemtable_oldest_hit i hi hmiss hhit
  unfold LSMTree.Get
  rw [hmem, hsi]
  simp [notNil_eq_true hv]

/-- Witness for C4 (amended): the older immutable memtable misses key
`0x0A`, the newer one holds `0x03`, and `get` returns it. -/
theorem C4_immutable_probe_oldest_first_witness :
    memTableGet stateNewerImmutableOnly.memTable [10] = none ∧
    stateNewerImmutableOnly.Get [10] = some ([3], true) := by
  refine ⟨by decide, ?_⟩
  apply C4_immutable_probe_oldest_first stateNewerImmutableOnly [10] [3] 1
    (by decide) (by decide) ?_ (by decide) (by decide)
  intro j hj
  have hj0 : j = 0 := by omega
  subst hj0
  exact (by decide :
    memTableGet (stateNewerImmutableOnly.immutableMemtables.get ⟨0, by decide⟩) [10] = none)

/-- Counterexample for C4 as stated: both immutable memtables contain
key `0x0A` (older value `0x01`, newer value `0x02`); the claim requires
`get` to return the newer `0x02`, but the engine returns `0x01`. -/
theorem C4_counterexample :
    stateTwoImmutables.Get [10] = some ([1], true) ∧
    stateTwoImmutables.Get [10] ≠ some ([2], true) := by
  refine ⟨by decide, by decide⟩

theorem countKey_insertEntries (e : List Rec) (k v : Bytes) :
    countKey (insertEntries e k v) k = countKey e k + 1 := by
  induction e with
  | nil => simp [insertEntries, countKey, List.filter]
  | cons p rest ih =>
    obtain ⟨k0, v0⟩ := p
    by_cases hlt : keyLt k0 k
    · simp only [insertEntries, if_pos hlt, countKey, List.filter] at ih ⊢
      cases hd : decide (k0 = k) <;> simp [hd] at ih ⊢ <;> omega
    · simp [insertEntries, if_neg hlt, countKey, List.filter]

/-- C5 (amended): `memTable.put` (via `SkipList.Insert`) is NOT an
idempotent overwrite: it always inserts a fresh node in front of any
existing nodes with the same key, so a repeated put increments the entry
count, adds the full key-plus-value length to the byte size, and leaves
a duplicate entry behind; lookups do return the newest value. Memtables
— and disk tables built from them — can therefore hold a key more than
once, contrary to the claim. -/
theorem C5_put_always_inserts (m : SkipList) (k v : Bytes) :
    (memTablePut m k v).num = m.num + 1 ∧
    (memTablePut m k v).size = m.size + k.length + v.length ∧
    countKey (memTablePut m k v).entries k = countKey m.entries k + 1 ∧
    memTableGet (memTablePut m k v) k = some v :=
  ⟨rfl, rfl, countKey_insertEntries m.entries k v, memTableGet_put_self m k v⟩

/-- Counterexample for C5 as stated: after `put(0x07, [1,2])` then
`put(0x07, [3])` the memtable holds TWO entries for key `0x07`, its
entry count is 2 (the claim demands it stay 1) and its byte size is 5
(the claim demands `3 + (1 - 2) = 2`). -/
theorem C5_counterexample :
    countKey (memTablePut (memTablePut NewSkipList [7] [1, 2]) [7] [3]).entries [7] = 2 ∧
    (memTablePut (memTablePut NewSkipList [7] [1, 2]) [7] [3]).num = 2 ∧
    (memTablePut (memTablePut NewSkipList [7] [1, 2]) [7] [3]).size = 5 := by
  refine ⟨by decide, by decide, by decide⟩

theorem Put_eval_keyRequired {t : LSMTree} {k v : Bytes} (h : k.length = 0) :
    t.Put k v = (some .keyRequired, t, []) := by
  unfold LSMTree.Put
  rw [if_pos h]

theorem Put_eval_keyTooLarge {t : LSMTree} {k v : Bytes}
    (h0 : ¬ (k.length = 0)) (h : k.length > MaxKeySize) :
    t.Put k v = (some .keyTooLarge, t, []) := by
  unfold LSMTree.Put
  rw [if_neg h0, if_pos h]

theorem Put_eval_valueRequired {t : LSMTree} {k v : Bytes}
    (h0 : ¬ (k.length = 0)) (h1 : ¬ (k.length > MaxKeySize)) (h : v.length = 0) :
    t.Put k v = (some .valueRequired, t, []) := by
  unfold LSMTree.Put
  rw [if_neg h0, if_neg h1, if_pos h]

theorem Put_eval_valueTooLarge {t : LSMTree} {k v : Bytes}
    (h0 : ¬ (k.length = 0)) (h1 : ¬ (k.length > MaxKeySize))
    (h2 : ¬ (v.length = 0)) (h : v.length > MaxValueSize) :
    t.Put k v = (some .valueTooLarge, t, []) := by
  unfold LSMTree.Put
  rw [if_neg h0, if_neg h1, if_neg h2, if_pos h]

theorem Put_valid_no_validation_err {t : LSMTree} {k v : Bytes}
    (h0 : ¬ (k.length = 0)) (h1 : ¬ (k.length > MaxKeySize))
    (h2 : ¬ (v.length = 0)) (h3 : ¬ (v.length > MaxValueSize)) :
    (t.Put k v).1 = none ∨ (t.Put k v).1 = some .compactionStuck ∨
      (t.Put k v).1 = some .ioError := by
  unfold LSMTree.Put
  rw [if_neg h0, if_neg h1, if_neg h2, if_neg h3]
  dsimp only
  repeat' split
  all_goals simp

/-- C9 (amended): the four validation checks of `put` run in the fixed
order key-empty, key-too-large, value-empty, value-too-large, and the
first violated check decides the error; hence KEY_REQUIRED is returned
exactly on an empty key, KEY_TOO_LARGE exactly on a non-empty key longer
than 65535 bytes, VALUE_REQUIRED exactly on an empty value with a valid
key, and VALUE_TOO_LARGE exactly on a value longer than 65535 bytes with
a valid key (keys and values of length 1 or 65535 pass validation); on
any validation error the engine state (WAL, memtable, tables) is
returned unchanged. In particular VALUE_REQUIRED is NOT returned for
every empty value — an empty key takes precedence (see the
counterexample). -/
theorem C9_put_validation (t : LSMTree) (k v : Bytes) :
    ((t.Put k v).1 = some .keyRequired ↔ k = []) ∧
    ((t.Put k v).1 = some .keyTooLarge ↔ (k ≠ [] ∧ k.length > MaxKeySize)) ∧
    ((t.Put k v).1 = some .valueRequired ↔
      (k ≠ [] ∧ k.length ≤ MaxKeySize ∧ v = [])) ∧
    ((t.Put k v).1 = some .valueTooLarge ↔
      (k ≠ [] ∧ k.length ≤ MaxKeySize ∧ v ≠ [] ∧ v.length > MaxValueSize)) ∧
    (∀ e, (t.Put k v).1 = some e →
      (e = PutErr.keyRequired ∨ e = PutErr.keyTooLarge ∨
        e = PutErr.valueRequired ∨ e = PutErr.valueTooLarge) →
      (t.Put k v).2.1 = t) := by
  by_cases hk0 : k.length = 0
  · have hknil : k = [] := List.eq_nil_of_length_eq_zero hk0
    rw [Put_eval_keyRequired hk0]
    refine ⟨by simp [hknil], by simp [hknil], by simp [hknil], by simp [hknil], ?_⟩
    intro e _ _
    rfl
  · have hkne : k ≠ [] := fun h => hk0 (by rw [h]; rfl)
    by_cases hk1 : k.length > MaxKeySize
    · have hnle : ¬ (k.length ≤ MaxKeySize) := by omega
      rw [Put_eval_keyTooLarge hk0 hk1]
      refine ⟨by simp [hkne], by simp [hkne, hk1], by simp [hnle], by simp [hnle], ?_⟩
      intro e _ _
      rfl
    · by_cases hv0 : v.length = 0
      · have hvnil : v = [] := List.eq_nil_of_length_eq_zero hv0
        have hkle : k.length ≤ MaxKeySize := by omega
        rw [Put_eval_valueRequired hk0 hk1 hv0]
        refine ⟨by simp [hkne], by simp [hk1], by simp [hkne, hvnil, hkle],
          by simp [hvnil], ?_⟩
        intro e _ _
        rfl
      · have hvne : v ≠ [] := fun h => hv0 (by rw [h]; rfl)
        by_cases hv1 : v.length > MaxValueSize
        · have hkle : k.length ≤ MaxKeySize := by omega
          rw [Put_eval_valueTooLarge hk0 hk1 hv0 hv1]
          refine ⟨by simp [hkne], by simp [hk1], by simp [hvne],
            by simp [hkne, hvne, hkle, hv1], ?_⟩
          intro e _ _
          rfl
        · rcases Put_valid_no_validation_err hk0 hk1 hv0 hv1 (t := t) (k := k) (v := v)
            with hres | hres | hres
          · rw [hres]
            refine ⟨by simp [hkne], by simp [hk1], by simp [hvne], by simp [hv1], ?_⟩
            intro e hee _
            exact absurd hee (by simp)
          · rw [hres]
            refine ⟨by simp [hkne], by simp [hk1], by simp [hvne], by simp [hv1], ?_⟩
            intro e hee he2
            have he : e = PutErr.compactionStuck := (Option.some.inj hee).symm
            rcases he2 with h | h | h | h <;> (rw [he] at h; exact absurd h (by simp))
          · rw [hres]
            refine ⟨by simp [hkne], by simp [hk1], by simp [hvne], by simp [hv1], ?_⟩
            intro e hee he2
            have he : e = PutErr.ioError := (Option.some.inj hee).symm
            rcases he2 with h | h | h | h <;> (rw [he] at h; exact absurd h (by simp))

/-- Witness for C9 (amended): a non-empty key with an empty value is
rejected with VALUE_REQUIRED. -/
theorem C9_put_validation_witness :
    (defaultFreshEngine.Put [1] []).1 = some PutErr.valueRequired :=
  (C9_put_validation defaultFreshEngine [1] []).2.2.1.mpr
    ⟨by decide, by decide, rfl⟩

/-- Counterexample for C9 as stated: on an empty key AND empty value the
claim requires both KEY_REQUIRED ("exactly when the key is empty") and
VALUE_REQUIRED ("exactly when the value is empty"); the engine returns
KEY_REQUIRED, so VALUE_REQUIRED is not returned for every empty
value. -/
theorem C9_counterexample :
    (defaultFreshEngine.Put [] []).1 = some PutErr.keyRequired ∧
    (defaultFreshEngine.Put [] []).1 ≠ some PutErr.valueRequired := by
  refine ⟨by decide, by decide⟩

theorem mergeGo_mem_sub (f : Nat) : ∀ as bs : List Rec, as.length + bs.length ≤ f →
    ∀ x : Rec, x ∈ mergeGo f as bs → x ∈ as ∨ x ∈ bs := by
  induction f with
  | zero =>
    intro as bs h x hx
    cases as with
    | nil =>
      cases bs with
      | nil => simp [mergeGo] at hx
      | cons b bs2 => simp at h
    | cons a as2 => simp at h
  | succ f ih =>
    intro as bs h x hx
    cases as with
    | nil =>
      simp only [mergeGo] at hx
      exact Or.inr hx
    | cons a as2 =>
      cases bs with
      | nil =>
        simp only [mergeGo] at hx
        exact Or.inl hx
      | cons b bs2 =>
        obtain ⟨ka, va⟩ := a
        obtain ⟨kb, vb⟩ := b
        simp only [mergeGo] at hx
        simp only [List.length_cons] at h
        rcases hc : bytesCompare ka kb with h1 | h1 | h1 <;> rw [hc] at hx <;>
          simp only [List.mem_cons] at hx ⊢
        · rcases hx with hx | hx
          · exact Or.inl (Or.inl hx)
          · rcases ih as2 ((kb, vb) :: bs2) (by simp; omega) x hx with h2 | h2
            · exact Or.inl (Or.inr h2)
            · exact Or.inr (List.mem_cons.mp h2)
        · rcases hx with hx | hx
          · exact Or.inr (Or.inl hx)
          · rcases ih as2 bs2 (by omega) x hx with h2 | h2
            · exact Or.inl (Or.inr h2)
            · exact Or.inr (Or.inr h2)
        · rcases hx with hx | hx
          · exact Or.inr (Or.inl hx)
          · rcases ih ((ka, va) :: as2) bs2 (by simp; omega) x hx with h2 | h2
            · exact Or.inl (List.mem_cons.mp h2)
            · exact Or.inr (Or.inr h2)

theorem mergeGo_mem_right (f : Nat) : ∀ as bs : List Rec, as.length + bs.length ≤ f →
    ∀ x : Rec, x ∈ bs → x ∈ mergeGo f as bs := by
  induction f with
  | zero =>
    intro as bs h x hx
    cases bs with
    | nil => simp at hx
    | cons b bs2 => simp at h
  | succ f ih =>
    intro as bs h x hx
    cases as with
    | nil =>
      simp only [mergeGo]
      exact hx
    | cons a as2 =>
      cases bs with
      | nil => simp at hx
      | cons b bs2 =>
        obtain ⟨ka, va⟩ := a
        obtain ⟨kb, vb⟩ := b
        simp only [List.length_cons] at h
        simp only [List.mem_cons] at hx
        simp only [mergeGo]
        rcases hc : bytesCompare ka kb with h1 | h1 | h1 <;> simp only [List.mem_cons]
        · rcases hx with hx | hx
          · exact Or.inr (ih as2 ((kb, vb) :: bs2) (by simp; omega) x
              (by simp [hx]))
          · exact Or.inr (ih as2 ((kb, vb) :: bs2) (by simp; omega) x
              (by simp [hx]))
        · rcases hx with hx | hx
          · exact Or.inl hx
          · exact Or.inr (ih as2 bs2 (by omega) x hx)
        · rcases hx with hx | hx
          · exact Or.inl hx
          · exact Or.inr (ih ((ka, va) :: as2) bs2 (by simp; omega) x hx)

theorem mergeGo_mem_left (f : Nat) : ∀ as bs : List Rec, as.length + bs.length ≤ f →
    ∀ x : Rec, x ∈ as → (∀ w, (x.1, w) ∉ bs) → x ∈ mergeGo f as bs := by
  induction f with
  | zero =>
    intro as bs h x hx _
    cases as with
    | nil => simp at hx
    | cons a as2 => simp at h
  | succ f ih =>
    intro as bs h x hx hnb
    cases as with
    | nil => simp at hx
    | cons a as2 =>
      cases bs with
      | nil =>
        simp only [mergeGo]
        exact hx
      | cons b bs2 =>
        obtain ⟨ka, va⟩ := a
        obtain ⟨kb, vb⟩ := b
        simp only [List.length_cons] at h
        simp only [List.mem_cons] at hx
        simp only [mergeGo]
        rcases hc : bytesCompare ka kb with h1 | h1 | h1 <;> simp only [List.mem_cons]
        · rcases hx with hx | hx
          · exact Or.inl hx
          · refine Or.inr (ih as2 ((kb, vb) :: bs2) (by simp; omega) x hx hnb)
        · have hkab : ka = kb := bytesCompare_eq_iff.mp hc
          rcases hx with hx | hx
          · exfalso
            apply hnb vb
            rw [hx]
            simp [hkab]
          · refine Or.inr (ih as2 bs2 (by omega) x hx ?_)
            intro w hw
            exact hnb w (List.mem_cons_of_mem _ hw)
        · refine Or.inr (ih ((ka, va) :: as2) bs2 (by simp; omega) x ?_ ?_)
          · simp only [List.mem_cons]
            exact hx
          · intro w hw
            exact hnb w (List.mem_cons_of_mem _ hw)

theorem mergeGo_newest_wins (f : Nat) : ∀ as bs : List Rec, as.length + bs.length ≤ f →
    sortedStrict as → sortedStrict bs →
    ∀ x : Rec, x ∈ mergeGo f as bs →
      x ∈ bs ∨ (x ∈ as ∧ ∀ w, (x.1, w) ∉ bs) := by
  induction f with
  | zero =>
    intro as bs h ha hb x hx
    cases as with
    | nil =>
      cases bs with
      | nil => simp [mergeGo] at hx
      | cons b bs2 => simp at h
    | cons a as2 => simp at h
  | succ f ih =>
    intro as bs h ha hb x hx
    cases as with
    | nil =>
      simp only [mergeGo] at hx
      exact Or.inl hx
    | cons a as2 =>
      cases bs with
      | nil =>
        simp only [mergeGo] at hx
        refine Or.inr ⟨hx, by simp⟩
      | cons b bs2 =>
        obtain ⟨ka, va⟩ := a
        obtain ⟨kb, vb⟩ := b
        simp only [List.length_cons] at h
        rw [sortedStrict, List.pairwise_cons] at ha hb
        obtain ⟨haall, ha2⟩ := ha
        obtain ⟨hball, hb2⟩ := hb
        simp only [mergeGo] at hx
        rcases hc : bytesCompare ka kb with h1 | h1 | h1 <;> rw [hc] at hx <;>
          simp only [List.mem_cons] at hx
        · -- ka < kb
          have hab : keyLt ka kb := hc
          rcases hx with hx | hx
          · refine Or.inr ⟨by simp [hx], ?_⟩
            intro w hw
            rcases List.mem_cons.mp hw with hw1 | hw1
            · have : x.1 = kb := congrArg Prod.fst hw1
              rw [hx] at this
              exact keyLt_ne hab this
            · have hkb : keyLt kb (x.1, w).1 := hball _ hw1
              rw [hx] at hkb
              exact keyLt_asymm hab hkb
          · rcases ih as2 ((kb, vb) :: bs2) (by simp; omega) ha2
              (by rw [sortedStrict, List.pairwise_cons]; exact ⟨hball, hb2⟩) x hx
              with h2 | h2
            · exact Or.inl h2
            · exact Or.inr ⟨List.mem_cons_of_mem _ h2.1, h2.2⟩
        · -- ka = kb
          have hkab : ka = kb := bytesCompare_eq_iff.mp hc
          rcases hx with hx | hx
          · exact Or.inl (by simp [hx])
          · rcases ih as2 bs2 (by omega) ha2 hb2 x hx with h2 | h2
            · exact Or.inl (List.mem_cons_of_mem _ h2)
            · refine Or.inr ⟨List.mem_cons_of_mem _ h2.1, ?_⟩
              intro w hw
              rcases List.mem_cons.mp hw with hw1 | hw1
              · have hx1 : keyLt ka x.1 := haall _ h2.1
                have : x.1 = kb := congrArg Prod.fst hw1
                rw [hkab] at hx1
                rw [this] at hx1
                exact keyLt_irrefl kb hx1
              · exact h2.2 w hw1
        · -- ka > kb
          have hba : keyLt kb ka := (bytesCompare_swap ka kb).mp hc
          rcases hx with hx | hx
          · exact Or.inl (by simp [hx])
          · rcases ih ((ka, va) :: as2) bs2 (by simp; omega)
              (by rw [sortedStrict, List.pairwise_cons]; exact ⟨haall, ha2⟩) hb2 x hx
              with h2 | h2
            · exact Or.inl (List.mem_cons_of_mem _ h2)
            · refine Or.inr ⟨h2.1, ?_⟩
              intro w hw
              rcases List.mem_cons.mp hw with hw1 | hw1
              · have hx1 : x.1 = kb := congrArg Prod.fst hw1
                rcases List.mem_cons.mp h2.1 with h3 | h3
                · have : x.1 = ka := congrArg Prod.fst h3
                  rw [this] at hx1
                  exact keyLt_ne hba hx1.symm
                · have : keyLt ka x.1 := haall _ h3
                  have h4 : keyLt kb x.1 := keyLt_trans hba this
                  exact keyLt_ne h4 hx1.symm
              · exact h2.2 w hw1

theorem mergeGo_sorted (f : Nat) : ∀ as bs : List Rec, as.length + bs.length ≤ f →
    sortedStrict as → sortedStrict bs → sortedStrict (mergeGo f as bs) := by
  induction f with
  | zero =>
    intro as bs h ha hb
    cases as with
    | nil =>
      cases bs with
      | nil => simp [mergeGo, sortedStrict]
      | cons b bs2 => simp at h
    | cons a as2 => simp at h
  | succ f ih =>
    intro as bs h ha hb
    cases as with
    | nil =>
      simp only [mergeGo]
      exact hb
    | cons a as2 =>
      cases bs with
      | nil =>
        simp only [mergeGo]
        exact ha
      | cons b bs2 =>
        obtain ⟨ka, va⟩ := a
        obtain ⟨kb, vb⟩ := b
        simp only [List.length_cons] at h
        rw [sortedStrict, List.pairwise_cons] at ha hb
        obtain ⟨haall, ha2⟩ := ha
        obtain ⟨hball, hb2⟩ := hb
        simp only [mergeGo]
        rcases hc : bytesCompare ka kb with h1 | h1 | h1
        · -- ka < kb
          have hab : keyLt ka kb := hc
          rw [sortedStrict, List.pairwise_cons]
          constructor
          · intro y hy
            rcases mergeGo_mem_sub f as2 ((kb, vb) :: bs2) (by simp; omega) y hy
              with h2 | h2
            · exact haall _ h2
            · rcases List.mem_cons.mp h2 with h3 | h3
              · rw [h3]
                exact hab
              · exact keyLt_trans hab (hball _ h3)
          · exact ih as2 ((kb, vb) :: bs2) (by simp; omega) ha2
              (by rw [sortedStrict, List.pairwise_cons]; exact ⟨hball, hb2⟩)
        · -- ka = kb
          have hkab : ka = kb := bytesCompare_eq_iff.mp hc
          rw [sortedStrict, List.pairwise_cons]
          constructor
          · intro y hy
            rcases mergeGo_mem_sub f as2 bs2 (by omega) y hy with h2 | h2
            · rw [← hkab]
              exact haall _ h2
            · exact hball _ h2
          · exact ih as2 bs2 (by omega) ha2 hb2
        · -- ka > kb
          have hba : keyLt kb ka := (bytesCompare_swap ka kb).mp hc
          rw [sortedStrict, List.pairwise_cons]
          constructor
          · intro y hy
            rcases mergeGo_mem_sub f ((ka, va) :: as2) bs2 (by simp; omega) y hy
              with h2 | h2
            · rcases List.mem_cons.mp h2 with h3 | h3
              · rw [h3]
                exact hba
              · exact keyLt_trans hba (haall _ h3)
            · exact hball _ h2
          · exact ih ((ka, va) :: as2) bs2 (by simp; omega)
              (by rw [sortedStrict, List.pairwise_cons]; exact ⟨haall, ha2⟩) hb2

theorem countKey_eq_zero {l : List Rec} {k : Bytes} (h : ∀ x ∈ l, x.1 ≠ k) :
    countKey l k = 0 := by
  unfold countKey
  rw [List.length_eq_zero]
  rw [List.filter_eq_nil_iff]
  intro a ha
  simp [h a ha]

theorem countKey_le_one_of_sorted {l : List Rec} (hs : sortedStrict l) (k : Bytes) :
    countKey l k ≤ 1 := by
  induction l with
  | nil => simp [countKey]
  | cons p rest ih =>
    obtain ⟨k0, v0⟩ := p
    rw [sortedStrict, List.pairwise_cons] at hs
    obtain ⟨hall, hrest⟩ := hs
    by_cases hk : k0 = k
    · have hzero : countKey rest k = 0 := by
        apply countKey_eq_zero
        intro x hx
        have := hall x hx
        rw [hk] at this
        exact fun he => keyLt_ne this he.symm
      unfold countKey at hzero ⊢
      simp only [List.filter, hk, decide_True, List.length_cons]
      omega
    · unfold countKey at ih ⊢
      simp only [List.filter]
      rw [show (decide (k0 = k)) = false by simp [hk]]
      exact ih hrest

/-- C7: merging two sorted, duplicate-free record streams from tables
`a < b` emits a sorted stream in which each key appears at most once;
a record of the merge comes from `b` (the newer table — on an equal key
only `b`'s pair is emitted and both iterators advance), or from `a` when
its key does not occur in `b` at all; conversely every record of `b` and
every record of `a` whose key misses `b` is emitted, so the merge covers
exactly the union of the two key sets. -/
theorem C7_merge_sorted_newer_wins (as bs : List Rec)
    (ha : sortedStrict as) (hb : sortedStrict bs) :
    sortedStrict (mergeRecords as bs) ∧
    (∀ k : Bytes, countKey (mergeRecords as bs) k ≤ 1) ∧
    (∀ x : Rec, x ∈ mergeRecords as bs ↔
      (x ∈ bs ∨ (x ∈ as ∧ ∀ w, (x.1, w) ∉ bs))) := by
  have hsorted : sortedStrict (mergeRecords as bs) :=
    mergeGo_sorted (as.length + bs.length) as bs (le_refl _) ha hb
  refine ⟨hsorted, fun k => countKey_le_one_of_sorted hsorted k, fun x => ⟨?_, ?_⟩⟩
  · intro hx
    exact mergeGo_newest_wins (as.length + bs.length) as bs (le_refl _) ha hb x hx
  · intro hx
    rcases hx with hx | hx
    · exact mergeGo_mem_right (as.length + bs.length) as bs (le_refl _) x hx
    · exact mergeGo_mem_left (as.length + bs.length) as bs (le_refl _) x hx.1 hx.2

/-- Witness for C7 at two concrete sorted tables sharing key `0x02`:
the merge keeps `b`'s pair for the shared key. -/
theorem C7_merge_sorted_newer_wins_witness :
    sortedStrict [([1], [10]), ([2], [20])] ∧
    (mergeRecords [([1], [10]), ([2], [20])] [([2], [99]), ([3], [30])] =
      [([1], [10]), ([2], [99]), ([3], [30])]) ∧
    sortedStrict (mergeRecords [([1], [10]), ([2], [20])] [([2], [99]), ([3], [30])]) ∧
    (∀ k : Bytes,
      countKey (mergeRecords [([1], [10]), ([2], [20])] [([2], [99]), ([3], [30])]) k ≤ 1) := by
  have h := C7_merge_sorted_newer_wins [([1], [10]), ([2], [20])] [([2], [99]), ([3], [30])]
    (by rw [sortedStrict]; decide) (by rw [sortedStrict]; decide)
  exact ⟨by rw [sortedStrict]; decide, by decide, h.1, h.2.1⟩

theorem diskLookup_append (l1 l2 : DiskDir) (j : Int) :
    diskLookup (l1 ++ l2) j =
      (match diskLookup l1 j with
       | some t => some t
       | none => diskLookup l2 j) := by
  induction l1 with
  | nil => simp [diskLookup]
  | cons p rest ih =>
    obtain ⟨a, t⟩ := p
    by_cases ha : a = j
    · simp [diskLookup, ha]
    · simp only [List.cons_append, diskLookup, if_neg ha]
      exact ih

theorem diskLookup_erase_other {i j : Int} (h : j ≠ i) (d : DiskDir) :
    diskLookup (diskErase d i) j = diskLookup d j := by
  induction d with
  | nil => rfl
  | cons p rest ih =>
    obtain ⟨a, t⟩ := p
    by_cases hai : a = i
    · have hbe : (a != i) = false := by simp [hai]
      simp only [diskErase, List.filter] at ih ⊢
      rw [hbe]
      rw [ih]
      have haj : ¬ (a = j) := by rw [hai]; exact fun he => h he.symm
      simp [diskLookup, haj]
    · have hbe : (a != i) = true := by simp [hai]
      simp only [diskErase, List.filter] at ih ⊢
      rw [hbe]
      by_cases haj : a = j
      · simp [diskLookup, haj]
      · simp only [diskLookup, if_neg haj]
        exact ih

theorem diskLookup_insert_self (d : DiskDir) (i : Int) (t : List Rec) :
    diskLookup (diskInsert d i t) i = some t := by
  unfold diskInsert
  rw [diskLookup_append]
  have herase : diskLookup (diskErase d i) i = none := by
    induction d with
    | nil => rfl
    | cons p rest ih =>
      obtain ⟨a, u⟩ := p
      by_cases hai : a = i
      · have hbe : (a != i) = false := by simp [hai]
        simp only [diskErase, List.filter] at ih ⊢
        rw [hbe]
        exact ih
      · have hbe : (a != i) = true := by simp [hai]
        simp only [diskErase, List.filter] at ih ⊢
        rw [hbe]
        simp only [diskLookup, if_neg hai]
        exact ih
  rw [herase]
  simp [diskLookup]

theorem diskLookup_insert_other {i j : Int} (h : j ≠ i) (d : DiskDir) (t : List Rec) :
    diskLookup (diskInsert d i t) j = diskLookup d j := by
  unfold diskInsert
  rw [diskLookup_append]
  rw [diskLookup_erase_other h]
  have hne : ¬ (i = j) := fun he => h he.symm
  cases hd : diskLookup d j with
  | some u => rfl
  | none => simp [diskLookup, hne]

theorem pairIdxList_succ (o : Int) (n : Nat) :
    pairIdxList o (n + 1) = o :: pairIdxList (o + 1) n := by
  unfold pairIdxList
  rw [List.range_succ_eq_map, List.map_cons, List.map_map]
  congr 1
  · norm_num
  · apply List.map_congr_left
    intro j _
    simp only [Function.comp_apply, Nat.succ_eq_add_one, Int.ofNat_eq_natCast]
    push_cast
    ring

theorem chainPairs_succ (o : Int) (n : Nat) :
    chainPairs o (n + 1) = (o, o + 1) :: chainPairs (o + 1) n := by
  unfold chainPairs
  rw [List.range_succ_eq_map, List.map_cons, List.map_map]
  congr 1
  · norm_num
  · apply List.map_congr_left
    intro j _
    simp only [Function.comp_apply, Prod.mk.injEq, Nat.succ_eq_add_one, Int.ofNat_eq_natCast]
    constructor <;> (push_cast; ring)

theorem mem_pairIdxList {o : Int} {n : Nat} {i : Int} :
    i ∈ pairIdxList o n ↔ ∃ j : Nat, j < n ∧ i = o + Int.ofNat j := by
  unfold pairIdxList
  rw [List.mem_map]
  constructor
  · rintro ⟨j, hj, hje⟩
    exact ⟨j, List.mem_range.mp hj, hje.symm⟩
  · rintro ⟨j, hj, hje⟩
    exact ⟨j, List.mem_range.mpr hj, hje.symm⟩

theorem scanPairs_stuck (d : DiskDir) :
    ∀ (fuel : Nat) (i : Int) (pending : List (Int × Int)),
      (∀ i2 ∈ pairIdxList i fuel,
        ∀ ra rb, diskLookup d i2 = some ra → diskLookup d (i2 + 1) = some rb →
          dataFileSize ra + dataFileSize rb > 2 * 1024 * 1024) →
      scanPairs d i fuel pending = .stuck := by
  intro fuel
  induction fuel with
  | zero => intro i pending _; rfl
  | succ f ih =>
    intro i pending h
    have htail : ∀ i2 ∈ pairIdxList (i + 1) f,
        ∀ ra rb, diskLookup d i2 = some ra → diskLookup d (i2 + 1) = some rb →
          dataFileSize ra + dataFileSize rb > 2 * 1024 * 1024 := by
      intro i2 hi2
      exact h i2 (by rw [pairIdxList_succ]; exact List.mem_cons_of_mem _ hi2)
    have hhead : i ∈ pairIdxList i (f + 1) := by
      rw [pairIdxList_succ]
      exact List.mem_cons_self _ _
    unfold scanPairs
    cases hla : diskLookup d i with
    | none => exact ih (i + 1) pending htail
    | some ra =>
      cases hlb : diskLookup d (i + 1) with
      | none => exact ih (i + 1) pending htail
      | some rb =>
        dsimp only
        rw [if_pos (h i hhead ra rb hla hlb)]
        exact ih (i + 1) (pending ++ [(i, i + 1)]) htail

theorem scanPairs_merged (d : DiskDir) (j : Int) (rj rj1 : List Rec)
    (hj : diskLookup d j = some rj) (hj1 : diskLookup d (j + 1) = some rj1)
    (hsz : ¬ (dataFileSize rj + dataFileSize rj1 > 2 * 1024 * 1024)) :
    ∀ (fuel : Nat) (i : Int) (pending : List (Int × Int)),
      i ≤ j → (j - i).toNat < fuel →
      (∀ i2 ∈ pairIdxList i (j - i).toNat,
        ∃ ra rb, diskLookup d i2 = some ra ∧ diskLookup d (i2 + 1) = some rb ∧
          dataFileSize ra + dataFileSize rb > 2 * 1024 * 1024) →
      scanPairs d i fuel pending =
        .merged (diskInsert (diskErase (diskErase d j) (j + 1)) (j + 1) (mergeRecords rj rj1))
          (pending ++ chainPairs i (j - i).toNat) j := by
  intro fuel
  induction fuel with
  | zero => intro i pending _ hf _; omega
  | succ f ih =>
    intro i pending hij hf h
    by_cases hije : i = j
    · subst hije
      have h0 : (i - i).toNat = 0 := by omega
      rw [h0]
      unfold scanPairs
      rw [hj, hj1]
      dsimp only
      rw [if_neg hsz]
      simp [chainPairs]
    · have hilt : i < j := lt_of_le_of_ne hij hije
      have hn : (j - i).toNat = (j - (i + 1)).toNat + 1 := by omega
      have hhead : i ∈ pairIdxList i (j - i).toNat := by
        rw [hn, pairIdxList_succ]
        exact List.mem_cons_self _ _
      obtain ⟨ra, rb, hra, hrb, hsz2⟩ := h i hhead
      unfold scanPairs
      rw [hra, hrb]
      dsimp only
      rw [if_pos hsz2]
      have htail : ∀ i2 ∈ pairIdxList (i + 1) (j - (i + 1)).toNat,
          ∃ ra rb, diskLookup d i2 = some ra ∧ diskLookup d (i2 + 1) = some rb ∧
            dataFileSize ra + dataFileSize rb > 2 * 1024 * 1024 := by
        intro i2 hi2
        apply h i2
        rw [hn, pairIdxList_succ]
        exact List.mem_cons_of_mem _ hi2
      rw [ih (i + 1) (pending ++ [(i, i + 1)]) (by omega) (by omega) htail]
      rw [hn, chainPairs_succ]
      simp

theorem applyRenames_chain (n : Nat) : ∀ (d : DiskDir) (o : Int),
    (∀ a ∈ pairIdxList o n, (diskLookup d a).isSome) →
    (applyRenames d (chainPairs o n)).2 = true ∧
    (∀ idx : Int, o + Int.ofNat n < idx →
      diskLookup (applyRenames d (chainPairs o n)).1 idx = diskLookup d idx) := by
  induction n with
  | zero =>
    intro d o _
    constructor
    · rfl
    · intro idx _
      rfl
  | succ n ih =>
    intro d o h
    have hhead : (diskLookup d o).isSome := by
      apply h
      rw [pairIdxList_succ]
      exact List.mem_cons_self _ _
    obtain ⟨t0, ht0⟩ := Option.isSome_iff_exists.mp hhead
    rw [chainPairs_succ]
    have hren : renameDiskTable d o (o + 1) =
        some (diskInsert (diskErase d o) (o + 1) t0) := by
      unfold renameDiskTable
      rw [ht0]
    simp only [applyRenames, hren]
    have htail : ∀ a ∈ pairIdxList (o + 1) n,
        (diskLookup (diskInsert (diskErase d o) (o + 1) t0) a).isSome := by
      intro a ha
      rcases mem_pairIdxList.mp ha with ⟨j2, hj2, hae⟩
      by_cases hao1 : a = o + 1
      · rw [hao1, diskLookup_insert_self]
        rfl
      · rw [Int.ofNat_eq_natCast] at hae
        have hao : a ≠ o := by omega
        rw [diskLookup_insert_other hao1, diskLookup_erase_other hao]
        apply h
        rw [pairIdxList_succ]
        apply List.mem_cons_of_mem
        exact ha
      -- conversion of membership between the two windows handled above
    obtain ⟨hsucc, hpres⟩ := ih (diskInsert (diskErase d o) (o + 1) t0) (o + 1) htail
    refine ⟨hsucc, ?_⟩
    intro idx hidx
    have hidx2 : (o + 1) + Int.ofNat n < idx := by
      rw [Int.ofNat_eq_natCast] at hidx ⊢
      push_cast at hidx ⊢
      omega
    rw [hpres idx hidx2]
    have hno1 : idx ≠ o + 1 := by
      rw [Int.ofNat_eq_natCast] at hidx
      omega
    have hno : idx ≠ o := by
      rw [Int.ofNat_eq_natCast] at hidx
      omega
    rw [diskLookup_insert_other hno1, diskLookup_erase_other hno]

theorem Put_compaction_stuck (t : LSMTree) (k v : Bytes)
    (h0 : ¬ (k.length = 0)) (h1 : ¬ (k.length > MaxKeySize))
    (h2 : ¬ (v.length = 0)) (h3 : ¬ (v.length > MaxValueSize))
    (hnf : ¬ ((memTablePut t.memTable k v).size ≥ t.memTableThreshold))
    (hnofl : ¬ (t.immutableMemtables.length ≥ t.immutableMemtableMaxNum))
    (htrig : t.diskTableNum ≥ t.diskTableNumThreshold)
    (hscan : scanPairs t.disk (t.maxDiskTableIndex - t.diskTableNum + 1)
      (t.maxDiskTableIndex - (t.maxDiskTableIndex - t.diskTableNum + 1)).toNat [] =
      ScanOut.stuck) :
    t.Put k v = (some PutErr.compactionStuck, walMemMutated t k v, []) := by
  unfold LSMTree.Put
  rw [if_neg h0, if_neg h1, if_neg h2, if_neg h3]
  dsimp only
  rw [if_neg (show ¬ (memTableBytes (memTablePut t.memTable k v) ≥ t.memTableThreshold)
    from hnf)]
  dsimp only
  rw [if_neg hnofl]
  dsimp only
  rw [if_pos htrig, hscan]
  rfl

-- separator
theorem Put_compaction_merged (t : LSMTree) (k v : Bytes)
    (h0 : ¬ (k.length = 0)) (h1 : ¬ (k.length > MaxKeySize))
    (h2 : ¬ (v.length = 0)) (h3 : ¬ (v.length > MaxValueSize))
    (hnf : ¬ ((memTablePut t.memTable k v).size ≥ t.memTableThreshold))
    (hnofl : ¬ (t.immutableMemtables.length ≥ t.immutableMemtableMaxNum))
    (htrig : t.diskTableNum ≥ t.diskTableNumThreshold)
    (d1 d2 : DiskDir) (pending : List (Int × Int)) (j : Int)
    (hscan : scanPairs t.disk (t.maxDiskTableIndex - t.diskTableNum + 1)
      (t.maxDiskTableIndex - (t.maxDiskTableIndex - t.diskTableNum + 1)).toNat [] =
      ScanOut.merged d1 pending j)
    (hren : applyRenames d1 pending = (d2, true)) :
    t.Put k v = (none,
      { walMemMutated t k v with
          metaFile := some (t.diskTableNum - 1, t.maxDiskTableIndex),
          disk := d2,
          diskTableNum := t.diskTableNum - 1 }, pending) := by
  unfold LSMTree.Put
  rw [if_neg h0, if_neg h1, if_neg h2, if_neg h3]
  dsimp only
  rw [if_neg (show ¬ (memTableBytes (memTablePut t.memTable k v) ≥ t.memTableThreshold)
    from hnf)]
  dsimp only
  rw [if_neg hnofl]
  dsimp only
  rw [if_pos htrig, hscan]
  dsimp only
  rw [hren]
  rfl

theorem Put_first_eligible_pair (t : LSMTree) (k v : Bytes)
    (h0 : k ≠ []) (h1 : k.length ≤ MaxKeySize)
    (h2 : v ≠ []) (h3 : v.length ≤ MaxValueSize)
    (hnf : (memTablePut t.memTable k v).size < t.memTableThreshold)
    (hnofl : t.immutableMemtables.length < t.immutableMemtableMaxNum)
    (htrig : t.diskTableNum ≥ t.diskTableNumThreshold)
    (j : Int) (rj rj1 : List Rec)
    (hoj : t.maxDiskTableIndex - t.diskTableNum + 1 ≤ j) (hjlt : j < t.maxDiskTableIndex)
    (hj : diskLookup t.disk j = some rj) (hj1 : diskLookup t.disk (j + 1) = some rj1)
    (hsz : dataFileSize rj + dataFileSize rj1 ≤ 2 * 1024 * 1024)
    (hwindow : ∀ i2 ∈ pairIdxList (t.maxDiskTableIndex - t.diskTableNum + 1)
        (j - (t.maxDiskTableIndex - t.diskTableNum + 1)).toNat,
      ∃ ra rb, diskLookup t.disk i2 = some ra ∧ diskLookup t.disk (i2 + 1) = some rb ∧
        dataFileSize ra + dataFileSize rb > 2 * 1024 * 1024) :
    (t.Put k v).1 = none ∧
    (t.Put k v).2.1.metaFile = some (t.diskTableNum - 1, t.maxDiskTableIndex) ∧
    (t.Put k v).2.1.diskTableNum = t.diskTableNum - 1 ∧
    (t.Put k v).2.1.maxDiskTableIndex = t.maxDiskTableIndex ∧
    diskLookup (t.Put k v).2.1.disk (j + 1) = some (mergeRecords rj rj1) ∧
    (t.Put k v).2.2 = chainPairs (t.maxDiskTableIndex - t.diskTableNum + 1)
      (j - (t.maxDiskTableIndex - t.diskTableNum + 1)).toNat := by
  have h0' : ¬ (k.length = 0) := fun h => h0 (List.eq_nil_of_length_eq_zero h)
  have h1' : ¬ (k.length > MaxKeySize) := by omega
  have h2' : ¬ (v.length = 0) := fun h => h2 (List.eq_nil_of_length_eq_zero h)
  have h3' : ¬ (v.length > MaxValueSize) := by omega
  have hnf' : ¬ ((memTablePut t.memTable k v).size ≥ t.memTableThreshold) := by omega
  have hnofl' : ¬ (t.immutableMemtables.length ≥ t.immutableMemtableMaxNum) := by omega
  have hfuel : (j - (t.maxDiskTableIndex - t.diskTableNum + 1)).toNat <
      (t.maxDiskTableIndex - (t.maxDiskTableIndex - t.diskTableNum + 1)).toNat := by
    omega
  have hscan := scanPairs_merged t.disk j rj rj1 hj hj1 (by omega)
    (t.maxDiskTableIndex - (t.maxDiskTableIndex - t.diskTableNum + 1)).toNat
    (t.maxDiskTableIndex - t.diskTableNum + 1) [] hoj hfuel hwindow
  rw [List.nil_append] at hscan
  have hd1src : ∀ a ∈ pairIdxList (t.maxDiskTableIndex - t.diskTableNum + 1)
      (j - (t.maxDiskTableIndex - t.diskTableNum + 1)).toNat,
      (diskLookup (diskInsert (diskErase (diskErase t.disk j) (j + 1)) (j + 1)
        (mergeRecords rj rj1)) a).isSome := by
    intro a ha
    rcases mem_pairIdxList.mp ha with ⟨j2, hj2, hae⟩
    rw [Int.ofNat_eq_natCast] at hae
    have haj1 : a ≠ j + 1 := by omega
    have haj : a ≠ j := by omega
    rw [diskLookup_insert_other haj1, diskLookup_erase_other haj1,
      diskLookup_erase_other haj]
    obtain ⟨ra, rb, hra, hrb, _⟩ := hwindow a ha
    rw [hra]
    rfl
  obtain ⟨hsucc, hpres⟩ := applyRenames_chain
    (j - (t.maxDiskTableIndex - t.diskTableNum + 1)).toNat
    (diskInsert (diskErase (diskErase t.disk j) (j + 1)) (j + 1) (mergeRecords rj rj1))
    (t.maxDiskTableIndex - t.diskTableNum + 1) hd1src
  have hren : applyRenames
      (diskInsert (diskErase (diskErase t.disk j) (j + 1)) (j + 1) (mergeRecords rj rj1))
      (chainPairs (t.maxDiskTableIndex - t.diskTableNum + 1)
        (j - (t.maxDiskTableIndex - t.diskTableNum + 1)).toNat) =
      ((applyRenames
        (diskInsert (diskErase (diskErase t.disk j) (j + 1)) (j + 1) (mergeRecords rj rj1))
        (chainPairs (t.maxDiskTableIndex - t.diskTableNum + 1)
          (j - (t.maxDiskTableIndex - t.diskTableNum + 1)).toNat)).1, true) := by
    rw [← hsucc]
  have hput := Put_compaction_merged t k v h0' h1' h2' h3' hnf' hnofl' htrig
    (diskInsert (diskErase (diskErase t.disk j) (j + 1)) (j + 1) (mergeRecords rj rj1))
    ((applyRenames
      (diskInsert (diskErase (diskErase t.disk j) (j + 1)) (j + 1) (mergeRecords rj rj1))
      (chainPairs (t.maxDiskTableIndex - t.diskTableNum + 1)
        (j - (t.maxDiskTableIndex - t.diskTableNum + 1)).toNat)).1)
    (chainPairs (t.maxDiskTableIndex - t.diskTableNum + 1)
      (j - (t.maxDiskTableIndex - t.diskTableNum + 1)).toNat)
    j hscan hren
  rw [hput]
  refine ⟨rfl, rfl, rfl, rfl, ?_, rfl⟩
  have hineq : (t.maxDiskTableIndex - t.diskTableNum + 1) +
      Int.ofNat (j - (t.maxDiskTableIndex - t.diskTableNum + 1)).toNat < j + 1 := by
    rw [Int.ofNat_eq_natCast]
    omega
  show diskLookup
      ((applyRenames
        (diskInsert (diskErase (diskErase t.disk j) (j + 1)) (j + 1) (mergeRecords rj rj1))
        (chainPairs (t.maxDiskTableIndex - t.diskTableNum + 1)
          (j - (t.maxDiskTableIndex - t.diskTableNum + 1)).toNat)).1) (j + 1) =
      some (mergeRecords rj rj1)
  rw [hpres (j + 1) hineq, diskLookup_insert_self]

/-- C8: when a valid `put` finds the disk-table count at or above the
threshold (here with the memtable below its freeze threshold and the
immutable list below its cap, so the tables are exactly those before the
put), adjacent pairs `(i, i+1)` are scanned from the oldest live index
`maxIndex - count + 1` upward; every pair whose combined data-file size
exceeds the 2 MiB ceiling is skipped; if no pair is eligible the put
fails with the compaction-stuck error leaving only the WAL append and
memtable insert; and the first eligible pair `(j, j+1)` is merged, with
the metadata file rewritten to `(count - 1, maxIndex)`, the in-memory
count decremented, `maxIndex` unchanged, and the merged records stored
at index `j + 1`. -/
theorem C8_put_compaction_policy (t : LSMTree) (k v : Bytes)
    (h0 : k ≠ []) (h1 : k.length ≤ MaxKeySize)
    (h2 : v ≠ []) (h3 : v.length ≤ MaxValueSize)
    (hnf : (memTablePut t.memTable k v).size < t.memTableThreshold)
    (hnofl : t.immutableMemtables.length < t.immutableMemtableMaxNum)
    (htrig : t.diskTableNum ≥ t.diskTableNumThreshold) :
    ((∀ i2 ∈ pairIdxList (t.maxDiskTableIndex - t.diskTableNum + 1)
          (t.maxDiskTableIndex - (t.maxDiskTableIndex - t.diskTableNum + 1)).toNat,
        ∀ ra rb, diskLookup t.disk i2 = some ra → diskLookup t.disk (i2 + 1) = some rb →
          dataFileSize ra + dataFileSize rb > 2 * 1024 * 1024) →
      t.Put k v = (some PutErr.compactionStuck, walMemMutated t k v, [])) ∧
    (∀ (j : Int) (rj rj1 : List Rec),
      t.maxDiskTableIndex - t.diskTableNum + 1 ≤ j → j < t.maxDiskTableIndex →
      diskLookup t.disk j = some rj → diskLookup t.disk (j + 1) = some rj1 →
      dataFileSize rj + dataFileSize rj1 ≤ 2 * 1024 * 1024 →
      (∀ i2 ∈ pairIdxList (t.maxDiskTableIndex - t.diskTableNum + 1)
          (j - (t.maxDiskTableIndex - t.diskTableNum + 1)).toNat,
        ∃ ra rb, diskLookup t.disk i2 = some ra ∧ diskLookup t.disk (i2 + 1) = some rb ∧
          dataFileSize ra + dataFileSize rb > 2 * 1024 * 1024) →
      ((t.Put k v).1 = none ∧
       (t.Put k v).2.1.metaFile = some (t.diskTableNum - 1, t.maxDiskTableIndex) ∧
       (t.Put k v).2.1.diskTableNum = t.diskTableNum - 1 ∧
       (t.Put k v).2.1.maxDiskTableIndex = t.maxDiskTableIndex ∧
       diskLookup (t.Put k v).2.1.disk (j + 1) = some (mergeRecords rj rj1))) := by
  have h0' : ¬ (k.length = 0) := fun h => h0 (List.eq_nil_of_length_eq_zero h)
  have h1' : ¬ (k.length > MaxKeySize) := by omega
  have h2' : ¬ (v.length = 0) := fun h => h2 (List.eq_nil_of_length_eq_zero h)
  have h3' : ¬ (v.length > MaxValueSize) := by omega
  have hnf' : ¬ ((memTablePut t.memTable k v).size ≥ t.memTableThreshold) := by omega
  have hnofl' : ¬ (t.immutableMemtables.length ≥ t.immutableMemtableMaxNum) := by omega
  constructor
  · intro hall
    exact Put_compaction_stuck t k v h0' h1' h2' h3' hnf' hnofl' htrig
      (scanPairs_stuck t.disk _ _ [] hall)
  · intro j rj rj1 hoj hjlt hj hj1 hsz hwindow
    have h := Put_first_eligible_pair t k v h0 h1 h2 h3 hnf hnofl htrig
      j rj rj1 hoj hjlt hj hj1 hsz hwindow
    exact ⟨h.1, h.2.1, h.2.2.1, h.2.2.2.1, h.2.2.2.2.1⟩

/-- Witness for C8 on three small tables at indices 0, 1, 2 with the
count at the threshold: the pair `(0, 1)` is eligible at once, so the
put merges it into index 1, decrements the count and rewrites the
metadata to `(2, 2)`. -/
theorem C8_put_compaction_policy_witness :
    (stateThreeTables.Put [9] [9]).1 = none ∧
    (stateThreeTables.Put [9] [9]).2.1.metaFile = some (2, 2) ∧
    (stateThreeTables.Put [9] [9]).2.1.diskTableNum = 2 ∧
    diskLookup (stateThreeTables.Put [9] [9]).2.1.disk 1 =
      some (mergeRecords [([1], [2])] [([3], [4])]) := by
  have h := (C8_put_compaction_policy stateThreeTables [9] [9]
      (by decide) (by decide) (by decide) (by decide) (by decide) (by decide)
      (by decide)).2 0 [([1], [2])] [([3], [4])]
      (by decide) (by decide) (by decide) (by decide) (by decide)
      (by
        intro i2 hi2
        simp only [stateThreeTables] at hi2
        rcases mem_pairIdxList.mp hi2 with ⟨j2, hj2, _⟩
        omega)
  exact ⟨h.1, h.2.1, h.2.2.1, h.2.2.2.2⟩

theorem Put_no_compaction (t : LSMTree) (k v : Bytes)
    (h0 : ¬ (k.length = 0)) (h1 : ¬ (k.length > MaxKeySize))
    (h2 : ¬ (v.length = 0)) (h3 : ¬ (v.length > MaxValueSize))
    (hnf : ¬ ((memTablePut t.memTable k v).size ≥ t.memTableThreshold))
    (hnofl : ¬ (t.immutableMemtables.length ≥ t.immutableMemtableMaxNum))
    (hnotrig : ¬ (t.diskTableNum ≥ t.diskTableNumThreshold)) :
    t.Put k v = (none, walMemMutated t k v, []) := by
  unfold LSMTree.Put
  rw [if_neg h0, if_neg h1, if_neg h2, if_neg h3]
  dsimp only
  rw [if_neg (show ¬ (memTableBytes (memTablePut t.memTable k v) ≥ t.memTableThreshold)
    from hnf)]
  dsimp only
  rw [if_neg hnofl]
  dsimp only
  rw [if_neg hnotrig]
  rfl

/-- C10: in a valid `put` (memtable below the freeze threshold,
immutable list below its cap), rename operations are issued only on the
successful-merge path of compaction: none when compaction is not
triggered, none when every adjacent pair is over the size ceiling (the
compaction-stuck failure), and — after the first eligible pair `(j,
j+1)` merges — exactly one rename `a- → (a+1)-` (moving the data, index
and sparse files over the next table's prefix) for each pair skipped for
size before `j`, in scan order. -/
theorem C10_renames_only_after_merge (t : LSMTree) (k v : Bytes)
    (h0 : k ≠ []) (h1 : k.length ≤ MaxKeySize)
    (h2 : v ≠ []) (h3 : v.length ≤ MaxValueSize)
    (hnf : (memTablePut t.memTable k v).size < t.memTableThreshold)
    (hnofl : t.immutableMemtables.length < t.immutableMemtableMaxNum) :
    (t.diskTableNum < t.diskTableNumThreshold → (t.Put k v).2.2 = []) ∧
    (t.diskTableNum ≥ t.diskTableNumThreshold →
      (∀ i2 ∈ pairIdxList (t.maxDiskTableIndex - t.diskTableNum + 1)
          (t.maxDiskTableIndex - (t.maxDiskTableIndex - t.diskTableNum + 1)).toNat,
        ∀ ra rb, diskLookup t.disk i2 = some ra → diskLookup t.disk (i2 + 1) = some rb →
          dataFileSize ra + dataFileSize rb > 2 * 1024 * 1024) →
      (t.Put k v).1 = some PutErr.compactionStuck ∧ (t.Put k v).2.2 = []) ∧
    (t.diskTableNum ≥ t.diskTableNumThreshold →
      ∀ (j : Int) (rj rj1 : List Rec),
        t.maxDiskTableIndex - t.diskTableNum + 1 ≤ j → j < t.maxDiskTableIndex →
        diskLookup t.disk j = some rj → diskLookup t.disk (j + 1) = some rj1 →
        dataFileSize rj + dataFileSize rj1 ≤ 2 * 1024 * 1024 →
        (∀ i2 ∈ pairIdxList (t.maxDiskTableIndex - t.diskTableNum + 1)
            (j - (t.maxDiskTableIndex - t.diskTableNum + 1)).toNat,
          ∃ ra rb, diskLookup t.disk i2 = some ra ∧ diskLookup t.disk (i2 + 1) = some rb ∧
            dataFileSize ra + dataFileSize rb > 2 * 1024 * 1024) →
        ((t.Put k v).1 = none ∧
         (t.Put k v).2.2 = chainPairs (t.maxDiskTableIndex - t.diskTableNum + 1)
           (j - (t.maxDiskTableIndex - t.diskTableNum + 1)).toNat)) := by
  have h0' : ¬ (k.length = 0) := fun h => h0 (List.eq_nil_of_length_eq_zero h)
  have h1' : ¬ (k.length > MaxKeySize) := by omega
  have h2' : ¬ (v.length = 0) := fun h => h2 (List.eq_nil_of_length_eq_zero h)
  have h3' : ¬ (v.length > MaxValueSize) := by omega
  have hnf' : ¬ ((memTablePut t.memTable k v).size ≥ t.memTableThreshold) := by omega
  have hnofl' : ¬ (t.immutableMemtables.length ≥ t.immutableMemtableMaxNum) := by omega
  refine ⟨?_, ?_, ?_⟩
  · intro hnotrig
    rw [Put_no_compaction t k v h0' h1' h2' h3' hnf' hnofl' (by omega)]
  · intro htrig hall
    rw [Put_compaction_stuck t k v h0' h1' h2' h3' hnf' hnofl' htrig
      (scanPairs_stuck t.disk _ _ [] hall)]
    exact ⟨rfl, rfl⟩
  · intro htrig j rj rj1 hoj hjlt hj hj1 hsz hwindow
    have h := Put_first_eligible_pair t k v h0 h1 h2 h3 hnf hnofl htrig
      j rj rj1 hoj hjlt hj hj1 hsz hwindow
    exact ⟨h.1, h.2.2.2.2.2⟩

/-- Witness for C10 on the three-table state: the put triggers
compaction, the first pair is eligible immediately, the put succeeds and
no renames are issued (no pair was skipped before it). -/
theorem C10_renames_only_after_merge_witness :
    (stateThreeTables.Put [9] [9]).1 = none ∧
    (stateThreeTables.Put [9] [9]).2.2 = [] := by
  have h := (C10_renames_only_after_merge stateThreeTables [9] [9]
      (by decide) (by decide) (by decide) (by decide) (by decide)
      (by decide)).2.2 (by decide) 0 [([1], [2])] [([3], [4])]
      (by decide) (by decide) (by decide) (by decide) (by decide)
      (by
        intro i2 hi2
        simp only [stateThreeTables] at hi2
        rcases mem_pairIdxList.mp hi2 with ⟨j2, hj2, _⟩
        omega)
  refine ⟨h.1, ?_⟩
  rw [h.2]
  decide
